import Mathlib

/-!
# Verification of the tic-tac-toe game core

Shallow embedding of the game core (`models.py`, `ai_strategy.py`,
`ai_opponent.py`, `game_engine.py`) and proofs of the specified properties.

Conventions of the embedding:
* Python strings `'X'`/`'O'` for marks become the inductive type `Mark`;
  the empty-cell string `''` becomes `none`, so a cell is `Option Mark`.
* The mutable 3x3 grid `grid[x][y]` becomes a total function
  `Fin 3 → Fin 3 → Option Mark`.  Out-of-bounds indices never reach the
  grid in the source (every access is guarded by an explicit bounds
  check that raises `ValueError` first), so the function model is exact.
* Methods that can raise `ValueError` return `Except GameError _`; the
  distinct raise sites are mapped to the distinct `GameError` kinds named
  by the spec's error taxonomy.  A raise that happens after some fields
  were already assigned is modelled by returning the partially updated
  state together with the error.
* Python's `random` module is modelled by an explicit stream of draws
  (`Rng`): `random.random()` and `random.uniform(0, t)` consume the next
  rational from `reals`, `random.choice(l)` consumes the next natural
  from `ints` and picks index `k % l.length`.
* Python floats (`0.1`, the preference weights) are modelled as exact
  rationals, and `float('-inf')` / `float('inf')` as the extended
  integers `XInt.negInf` / `XInt.posInf`; all minimax scores lie in
  `[-10, 10]`, far from any rounding or overflow behaviour.
-/

set_option maxHeartbeats 1000000

/-- A player mark: Python string `'X'` or `'O'`. -/
inductive Mark where
  | X : Mark
  | O : Mark
deriving DecidableEq, Repr

/-- `'O' if mark == 'X' else 'X'` — the opponent of a mark. -/
def Mark.opp : Mark → Mark
  | .X => .O
  | .O => .X

/-- A cell of the grid: `''`, `'X'` or `'O'`. -/
abbrev Cell := Option Mark

/-- `Move` from `models.py`: a coordinate pair.  Python equality compares
both coordinates, which is exactly structural equality here.  The source
stores arbitrary ints; the engine and the spec only ever use nonnegative
coordinates, so `Nat` coordinates model them (the source's lower bound
check `0 <= x` is then automatic, the upper bound is checked explicitly). -/
structure Move where
  x : Nat
  y : Nat
deriving DecidableEq, Repr

/-- The 3x3 grid `Board.grid` of `models.py`. -/
abbrev Board := Fin 3 → Fin 3 → Cell

/-- The fresh grid `[[''] * 3 for _ in range(3)]`. -/
def emptyBoard : Board := fun _ _ => none

/-- The error taxonomy of the spec (section 7); each constructor stands
for one family of `ValueError` raise sites of the source. -/
inductive GameError where
  | invalidMark : GameError
  | invalidDifficulty : GameError
  | outOfBounds : GameError
  | cellOccupied : GameError
  | gameNotInProgress : GameError
  | wrongTurn : GameError
deriving DecidableEq, Repr

/-- Extract the error of an `Except`, if any. -/
def errOf {α : Type} : Except GameError α → Option GameError
  | .error e => some e
  | .ok _ => none

/-- `Board.get_empty_cells`: all coordinates holding `''`, enumerated
row-major (`for x in range(3): for y in range(3)`). -/
def Board.get_empty_cells (b : Board) : List Move :=
  (List.finRange 3).flatMap fun x =>
    (List.finRange 3).filterMap fun y =>
      if b x y = none then some ⟨x.1, y.1⟩ else none

/-- `Board.is_cell_empty`: bounds-checked emptiness test. -/
def Board.is_cell_empty (b : Board) (x y : Nat) : Except GameError Bool :=
  if h : x < 3 ∧ y < 3 then
    .ok (decide (b ⟨x, h.1⟩ ⟨y, h.2⟩ = none))
  else .error .outOfBounds

/-- The raw cell assignment `self.grid[move.x][move.y] = mark` performed
by `make_move` once its checks passed. -/
def Board.placeMark (b : Board) (mv : Move) (m : Mark) : Board :=
  fun i j => if mv.x = i.1 ∧ mv.y = j.1 then some m else b i j

/-- The raw cell reset `self.grid[move.x][move.y] = ''` performed by
`undo_move` once its bounds check passed. -/
def Board.clearCell (b : Board) (mv : Move) : Board :=
  fun i j => if mv.x = i.1 ∧ mv.y = j.1 then none else b i j

/-- `Board.make_move`: bounds check, occupancy check, then assignment. -/
def Board.make_move (b : Board) (mv : Move) (mark : Mark) : Except GameError Board :=
  if h : mv.x < 3 ∧ mv.y < 3 then
    if b ⟨mv.x, h.1⟩ ⟨mv.y, h.2⟩ ≠ none then .error .cellOccupied
    else .ok (b.placeMark mv mark)
  else .error .outOfBounds

/-- `Board.undo_move`: bounds check, then reset to `''` (no check that
the cell was occupied). -/
def Board.undo_move (b : Board) (mv : Move) : Except GameError Board :=
  if mv.x < 3 ∧ mv.y < 3 then .ok (b.clearCell mv) else .error .outOfBounds

/-- `Board.check_win`: some row, some column, or one of the two
diagonals consists entirely of `mark`. -/
def Board.check_win (b : Board) (mark : Mark) : Bool :=
  ((List.finRange 3).any fun x =>
    (List.finRange 3).all fun y => decide (b x y = some mark)) ||
  ((List.finRange 3).any fun col =>
    (List.finRange 3).all fun row => decide (b row col = some mark)) ||
  ((List.finRange 3).all fun i => decide (b i i = some mark)) ||
  ((List.finRange 3).all fun i => decide (b i ⟨2 - i.1, by omega⟩ = some mark))

/-- `Board.check_draw`: every cell is filled (the caller is responsible
for checking wins first). -/
def Board.check_draw (b : Board) : Bool :=
  (List.finRange 3).all fun x =>
    (List.finRange 3).all fun y => decide (b x y ≠ none)

/-- `Board.is_game_over`. -/
def Board.is_game_over (b : Board) : Bool :=
  b.check_win .X || b.check_win .O || b.check_draw

/-- `Board.get_winning_line`: first matching line in the fixed scan
order rows, columns, main diagonal, anti-diagonal. -/
def Board.get_winning_line (b : Board) : Option (List Move) :=
  match (List.finRange 3).find? (fun row =>
      decide (b row 0 ≠ none) && decide (b row 0 = b row 1) && decide (b row 1 = b row 2)) with
  | some row => some [⟨row.1, 0⟩, ⟨row.1, 1⟩, ⟨row.1, 2⟩]
  | none =>
    match (List.finRange 3).find? (fun col =>
        decide (b 0 col ≠ none) && decide (b 0 col = b 1 col) && decide (b 1 col = b 2 col)) with
    | some col => some [⟨0, col.1⟩, ⟨1, col.1⟩, ⟨2, col.1⟩]
    | none =>
      if b 0 0 ≠ none ∧ b 0 0 = b 1 1 ∧ b 1 1 = b 2 2 then
        some [⟨0, 0⟩, ⟨1, 1⟩, ⟨2, 2⟩]
      else if b 0 2 ≠ none ∧ b 0 2 = b 1 1 ∧ b 1 1 = b 2 0 then
        some [⟨0, 2⟩, ⟨1, 1⟩, ⟨2, 0⟩]
      else none

/-! ## Extended integers: `float('-inf')`, `float('inf')` and int scores -/

/-- The values flowing through the minimax of `ai_strategy.py`: the
integer scores `10 - depth`, `depth - 10`, `0`, plus the two infinities
used to initialize `best_score` / `alpha` / `beta` / `max_eval` /
`min_eval`. -/
inductive XInt where
  | negInf : XInt
  | fin (n : Int) : XInt
  | posInf : XInt
deriving DecidableEq, Repr

namespace XInt

/-- The order of `XInt`, as Python's comparison of floats. -/
protected def le : XInt → XInt → Prop
  | negInf, _ => True
  | fin a, fin b => a ≤ b
  | fin _, posInf => True
  | fin _, negInf => False
  | posInf, posInf => True
  | posInf, _ => False

instance : LE XInt := ⟨XInt.le⟩

instance decidableLE : DecidableRel (α := XInt) (· ≤ ·)
  | negInf, _ => isTrue trivial
  | fin a, fin b => (inferInstanceAs (Decidable (a ≤ b)))
  | fin _, posInf => isTrue trivial
  | fin _, negInf => isFalse id
  | posInf, posInf => isTrue trivial
  | posInf, negInf => isFalse id
  | posInf, fin _ => isFalse id

instance : LinearOrder XInt where
  le_refl a := by
    cases a
    · exact trivial
    · exact Int.le_refl _
    · exact trivial
  le_trans a b c h1 h2 := by
    cases a <;> cases b <;> cases c <;>
      first
      | exact trivial
      | exact h1.elim
      | exact h2.elim
      | exact Int.le_trans h1 h2
  le_antisymm a b h1 h2 := by
    cases a <;> cases b <;>
      first
      | rfl
      | exact h1.elim
      | exact h2.elim
      | exact congrArg fin (Int.le_antisymm h1 h2)
  le_total a b := by
    cases a <;> cases b <;>
      first
      | exact Or.inl trivial
      | exact Or.inr trivial
      | exact Int.le_total _ _
  decidableLE := XInt.decidableLE

end XInt

/-! ## Randomness model -/

/-- Explicit model of the `random` module: a stream of real draws
(consumed by `random.random()` and `random.uniform`) and a stream of
index draws (consumed by `random.choice`), each with a cursor. -/
structure Rng where
  reals : Nat → ℚ
  ints : Nat → Nat
  ridx : Nat
  iidx : Nat

/-- Consume one draw of `random.random()` / `random.uniform`. -/
def Rng.nextReal (g : Rng) : ℚ × Rng :=
  (g.reals g.ridx, { g with ridx := g.ridx + 1 })

/-- Consume one index draw. -/
def Rng.nextInt (g : Rng) : Nat × Rng :=
  (g.ints g.iidx, { g with iidx := g.iidx + 1 })

/-- `random.choice(l)`: a uniformly random element of `l`, modelled by
reducing the drawn index modulo the length (callers guard `l ≠ []`). -/
def randomChoice {α : Type} (g : Rng) (l : List α) : Option α × Rng :=
  let (k, g1) := g.nextInt
  (l[k % l.length]?, g1)

/-! ## Easy and Medium strategies (`ai_strategy.py`) -/

/-- `EasyAIStrategy.find_best_move`: a uniformly random empty cell,
`None` when the board is full. -/
def EasyAIStrategy.find_best_move (b : Board) (g : Rng) : Option Move × Rng :=
  let empty_cells := b.get_empty_cells
  if empty_cells.isEmpty then (none, g)
  else randomChoice g empty_cells

/-- The win test inside `MediumAIStrategy._find_winning_move`: make the
move, check the win, undo the move.  The trial `make_move` cannot fail
because the move comes from `get_empty_cells`. -/
def trialWins (b : Board) (mv : Move) (mark : Mark) : Bool :=
  match b.make_move mv mark with
  | .ok b2 => b2.check_win mark
  | .error _ => false

/-- `MediumAIStrategy._find_winning_move`: the first empty cell, in
row-major order, whose trial placement wins for `mark`. -/
def findWinningMove (b : Board) (mark : Mark) : Option Move :=
  b.get_empty_cells.find? fun mv => trialWins b mv mark

/-- `MediumAIStrategy.find_best_move`: win, block, centre, random.
`is_cell_empty(1, 1)` is called with in-bounds constants and thus never
raises; it is inlined as the centre-cell test. -/
def MediumAIStrategy.find_best_move (b : Board) (mark : Mark) (g : Rng) :
    Option Move × Rng :=
  let opponent_mark := mark.opp
  match findWinningMove b mark with
  | some winning_move => (some winning_move, g)
  | none =>
    match findWinningMove b opponent_mark with
    | some blocking_move => (some blocking_move, g)
    | none =>
      if b 1 1 = none then (some ⟨1, 1⟩, g)
      else
        let empty_cells := b.get_empty_cells
        if empty_cells.isEmpty then (none, g)
        else randomChoice g empty_cells

/-! ## Hard strategy: minimax with alpha-beta pruning -/

/-- The maximizing loop of `_minimax`: fold over the empty cells
carrying `max_eval` and `alpha`, breaking when `beta <= alpha`.
`f mv alpha` is the recursive evaluation of the child position. -/
def abMaxFold (f : Move → XInt → XInt) (beta : XInt) :
    List Move → XInt → XInt → XInt
  | [], max_eval, _ => max_eval
  | mv :: rest, max_eval, alpha =>
    let ev := f mv alpha
    let max_eval2 := max max_eval ev
    let alpha2 := max alpha ev
    if beta ≤ alpha2 then max_eval2
    else abMaxFold f beta rest max_eval2 alpha2

/-- The minimizing loop of `_minimax`, dual to `abMaxFold`. -/
def abMinFold (f : Move → XInt → XInt) (alpha : XInt) :
    List Move → XInt → XInt → XInt
  | [], min_eval, _ => min_eval
  | mv :: rest, min_eval, beta =>
    let ev := f mv beta
    let min_eval2 := min min_eval ev
    let beta2 := min beta ev
    if beta2 ≤ alpha then min_eval2
    else abMinFold f alpha rest min_eval2 beta2

/-- `HardAIStrategy._minimax`, generic in the enumeration of candidate
moves (`em`).  The source enumerates `board.get_empty_cells()`; the
instantiation `minimaxAB` below fixes that.  The `fuel` argument only
drives the recursion; every call made by `find_best_move` passes fuel
`9`, which is never exhausted because each ply fills one of the at most
eight empty cells remaining below the root, and a full board is a
terminal state.  The mutate/undo pair on the Python board becomes the
pure `placeMark` (the trial move always targets a cell from the
enumeration of empty cells). -/
def minimaxABGen (em : Board → List Move) (ai_mark opponent_mark : Mark) :
    Nat → Board → Nat → Bool → XInt → XInt → XInt
  | 0, _, _, _, _, _ => .fin 0
  | fuel + 1, b, depth, is_maximizing, alpha, beta =>
    if b.check_win ai_mark then .fin (10 - (depth : Int))
    else if b.check_win opponent_mark then .fin ((depth : Int) - 10)
    else if b.check_draw then .fin 0
    else if is_maximizing then
      abMaxFold
        (fun mv a =>
          minimaxABGen em ai_mark opponent_mark fuel (b.placeMark mv ai_mark)
            (depth + 1) false a beta)
        beta (em b) .negInf alpha
    else
      abMinFold
        (fun mv bt =>
          minimaxABGen em ai_mark opponent_mark fuel (b.placeMark mv opponent_mark)
            (depth + 1) true alpha bt)
        alpha (em b) .posInf beta

/-- `HardAIStrategy._minimax`: the source iterates
`board.get_empty_cells()` at every node. -/
def minimaxAB (ai_mark opponent_mark : Mark) :
    Nat → Board → Nat → Bool → XInt → XInt → XInt :=
  minimaxABGen Board.get_empty_cells ai_mark opponent_mark

/-- The root loop of `find_best_move`: keep the first strictly improving
move (`if score > best_score`). -/
def rootLoop (scoreOf : Move → XInt) :
    List Move → XInt → Option Move → XInt × Option Move
  | [], best_score, best_move => (best_score, best_move)
  | mv :: rest, best_score, best_move =>
    let score := scoreOf mv
    if best_score < score then rootLoop scoreOf rest score (some mv)
    else rootLoop scoreOf rest best_score best_move

/-- `HardAIStrategy.find_best_move` together with its internal
`best_score` (the root score the claims compare). -/
def hardRoot (b : Board) (mark : Mark) : XInt × Option Move :=
  let opponent_mark := mark.opp
  rootLoop
    (fun mv =>
      minimaxAB mark opponent_mark 9 (b.placeMark mv mark) 0 false .negInf .posInf)
    b.get_empty_cells .negInf none

/-- `HardAIStrategy.find_best_move`. -/
def HardAIStrategy.find_best_move (b : Board) (mark : Mark) : Option Move :=
  (hardRoot b mark).2

/-! ## Spec-side exhaustive minimax (no pruning)

Modelled from the spec's words (section 4.2): exhaustive minimax over
the same depth-adjusted terminal scoring with no pruning, the root
selecting the move with the strictly greatest score, first in
enumeration order.  This is the reference point of the
refinement claim about alpha-beta. -/

/-- Maximizing fold without pruning. -/
def plainMaxFold (f : Move → XInt) (l : List Move) (acc : XInt) : XInt :=
  l.foldl (fun m mv => max m (f mv)) acc

/-- Minimizing fold without pruning. -/
def plainMinFold (f : Move → XInt) (l : List Move) (acc : XInt) : XInt :=
  l.foldl (fun m mv => min m (f mv)) acc

/-- Modelled from the spec: exhaustive minimax, same terminal scoring
as `_minimax`, no alpha-beta bounds; generic in the enumeration of
candidate moves. -/
def minimaxPlainGen (em : Board → List Move) (ai_mark opponent_mark : Mark) :
    Nat → Board → Nat → Bool → XInt
  | 0, _, _, _ => .fin 0
  | fuel + 1, b, depth, is_maximizing =>
    if b.check_win ai_mark then .fin (10 - (depth : Int))
    else if b.check_win opponent_mark then .fin ((depth : Int) - 10)
    else if b.check_draw then .fin 0
    else if is_maximizing then
      plainMaxFold
        (fun mv =>
          minimaxPlainGen em ai_mark opponent_mark fuel (b.placeMark mv ai_mark)
            (depth + 1) false)
        (em b) .negInf
    else
      plainMinFold
        (fun mv =>
          minimaxPlainGen em ai_mark opponent_mark fuel (b.placeMark mv opponent_mark)
            (depth + 1) true)
        (em b) .posInf

/-- Modelled from the spec: exhaustive minimax over the empty cells in
enumeration order. -/
def minimaxPlain (ai_mark opponent_mark : Mark) :
    Nat → Board → Nat → Bool → XInt :=
  minimaxPlainGen Board.get_empty_cells ai_mark opponent_mark

/-- Modelled from the spec: root selection over exhaustive minimax
scores, first strictly greatest score wins. -/
def plainRoot (b : Board) (mark : Mark) : XInt × Option Move :=
  let opponent_mark := mark.opp
  rootLoop
    (fun mv =>
      minimaxPlain mark opponent_mark 9 (b.placeMark mv mark) 0 false)
    b.get_empty_cells .negInf none

/-! ## Fast evaluation layer for the Hard-vs-Hard playout

`fastRoot` computes the same root pair as `hardRoot` (proved below as
`hardRoot_eq_fastRoot`), but is much cheaper to evaluate: inner nodes
try the centre and the corners first, a node whose mover has an
immediate winning placement is scored directly (optimal under the
depth-adjusted scoring), the board predicates are unrolled, and the
root loop threads the running best score as the alpha bound of the
next sibling.  None of this changes the root result — the fail-soft
alpha-beta relation (`minimaxFast_km`) pins every in-window value to
the exhaustive minimax value, which is independent of enumeration
order — and it makes the kernel evaluation of the self-play trace
feasible. -/

/-- Centre-first enumeration of the nine cells. -/
def prefPairs : List (Fin 3 × Fin 3) :=
  [(1, 1), (0, 0), (0, 2), (2, 0), (2, 2), (0, 1), (1, 0), (1, 2), (2, 1)]

/-- The nine cells in the row-major order that `get_empty_cells`
produces them. -/
def rowPairs : List (Fin 3 × Fin 3) :=
  [(0, 0), (0, 1), (0, 2), (1, 0), (1, 1), (1, 2), (2, 0), (2, 1), (2, 2)]

/-- The empty cells of `b` in centre-first order: a permutation of
`b.get_empty_cells`. -/
def fastEmpties (b : Board) : List Move :=
  (prefPairs.filter fun p => decide (b p.1 p.2 = none)).map fun p => ⟨p.1.1, p.2.1⟩

/-- The win test of `check_win` with the row, column and diagonal
scans unrolled into one Boolean formula; proved equal to `check_win`
(`winB_eq`).  Written this way so that the kernel can evaluate it
without re-reducing the `finRange` list machinery at every search
node. -/
def winB (b : Board) (m : Mark) : Bool :=
  (decide (b 0 0 = some m) && decide (b 0 1 = some m) && decide (b 0 2 = some m)) ||
  (decide (b 1 0 = some m) && decide (b 1 1 = some m) && decide (b 1 2 = some m)) ||
  (decide (b 2 0 = some m) && decide (b 2 1 = some m) && decide (b 2 2 = some m)) ||
  (decide (b 0 0 = some m) && decide (b 1 0 = some m) && decide (b 2 0 = some m)) ||
  (decide (b 0 1 = some m) && decide (b 1 1 = some m) && decide (b 2 1 = some m)) ||
  (decide (b 0 2 = some m) && decide (b 1 2 = some m) && decide (b 2 2 = some m)) ||
  (decide (b 0 0 = some m) && decide (b 1 1 = some m) && decide (b 2 2 = some m)) ||
  (decide (b 0 2 = some m) && decide (b 1 1 = some m) && decide (b 2 0 = some m))

/-- The draw test of `check_draw`, unrolled; proved equal to
`check_draw` (`drawB_eq`). -/
def drawB (b : Board) : Bool :=
  decide (b 0 0 ≠ none) && decide (b 0 1 ≠ none) && decide (b 0 2 ≠ none) &&
  decide (b 1 0 ≠ none) && decide (b 1 1 ≠ none) && decide (b 1 2 ≠ none) &&
  decide (b 2 0 ≠ none) && decide (b 2 1 ≠ none) && decide (b 2 2 ≠ none)

/-- The centre-first empty-cell enumeration, unrolled; proved equal to
`fastEmpties` (`emptiesB_eq`). -/
def emptiesB (b : Board) : List Move :=
  let l8 : List Move := bif decide (b 2 1 = none) then [⟨2, 1⟩] else []
  let l7 : List Move := bif decide (b 1 2 = none) then ⟨1, 2⟩ :: l8 else l8
  let l6 : List Move := bif decide (b 1 0 = none) then ⟨1, 0⟩ :: l7 else l7
  let l5 : List Move := bif decide (b 0 1 = none) then ⟨0, 1⟩ :: l6 else l6
  let l4 : List Move := bif decide (b 2 2 = none) then ⟨2, 2⟩ :: l5 else l5
  let l3 : List Move := bif decide (b 2 0 = none) then ⟨2, 0⟩ :: l4 else l4
  let l2 : List Move := bif decide (b 0 2 = none) then ⟨0, 2⟩ :: l3 else l3
  let l1 : List Move := bif decide (b 0 0 = none) then ⟨0, 0⟩ :: l2 else l2
  bif decide (b 1 1 = none) then ⟨1, 1⟩ :: l1 else l1

/-- Does the given mark have an immediate winning placement?  Used by
`minimaxFast` to return the value of such nodes without recursing:
with the depth-adjusted scoring, winning at once is exactly optimal,
so the node value is `10 - (depth + 1)` for the maximizer (dually for
the minimizer). -/
def hasWinB (b : Board) (m : Mark) : Bool :=
  (emptiesB b).any fun mv => winB (b.placeMark mv m) m

/-- An accelerated evaluator: alpha-beta over the centre-first
enumeration, with the unrolled board predicates and the immediate-win
shortcut.  `minimaxFast_km` proves it fail-soft-equivalent to the
exhaustive `minimaxPlainGen fastEmpties` whenever `depth + fuel ≤ 10`
(the shortcut needs one spare level of fuel for the winning child). -/
def minimaxFast (ai_mark opponent_mark : Mark) :
    Nat → Board → Nat → Bool → XInt → XInt → XInt
  | 0, _, _, _, _, _ => .fin 0
  | fuel + 1, b, depth, is_maximizing, alpha, beta =>
    if winB b ai_mark then .fin (10 - (depth : Int))
    else if winB b opponent_mark then .fin ((depth : Int) - 10)
    else if drawB b then .fin 0
    else if is_maximizing then
      if decide (1 ≤ fuel) && hasWinB b ai_mark then
        .fin (10 - ((depth : Int) + 1))
      else
        abMaxFold
          (fun mv a =>
            minimaxFast ai_mark opponent_mark fuel (b.placeMark mv ai_mark)
              (depth + 1) false a beta)
          beta (emptiesB b) .negInf alpha
    else
      if decide (1 ≤ fuel) && hasWinB b opponent_mark then
        .fin (((depth : Int) + 1) - 10)
      else
        abMinFold
          (fun mv bt =>
            minimaxFast ai_mark opponent_mark fuel (b.placeMark mv opponent_mark)
              (depth + 1) true alpha bt)
          alpha (emptiesB b) .posInf beta

/-- Root loop scoring children with alpha-beta windows `(bs, +inf)`
where `bs` is the running best score. -/
def fastRootGo (b : Board) (mark : Mark) :
    List Move → XInt → Option Move → XInt × Option Move
  | [], bs, bm => (bs, bm)
  | mv :: rest, bs, bm =>
    let sc := minimaxFast mark mark.opp 9 (b.placeMark mv mark) 0
      false bs .posInf
    if bs < sc then fastRootGo b mark rest sc (some mv)
    else fastRootGo b mark rest bs bm

/-- The accelerated equivalent of `hardRoot`. -/
def fastRoot (b : Board) (mark : Mark) : XInt × Option Move :=
  fastRootGo b mark b.get_empty_cells .negInf none

/-! ## Hard-vs-Hard self-play -/

/-- One ply of Hard-vs-Hard self-play: if the game is over the position
is kept, otherwise the mark to move plays
`HardAIStrategy.find_best_move` and the turn passes to the opponent.
`find_best_move` is deterministic, so this step function generates the
unique Hard-vs-Hard game. -/
def hardSelfPlayStep : Board × Mark → Board × Mark
  | (b, m) =>
    if b.is_game_over then (b, m)
    else
      match HardAIStrategy.find_best_move b m with
      | none => (b, m)
      | some mv => (b.placeMark mv m, m.opp)

/-- The Hard-vs-Hard game from the empty board, X to move first:
`hardTrace k` is the position after `k` plies. -/
def hardTrace : Nat → Board × Mark
  | 0 => (emptyBoard, .X)
  | k + 1 => hardSelfPlayStep (hardTrace k)

/-- Continue Hard-vs-Hard self-play for `n` plies from a position. -/
def hardSelfPlay : Nat → Board × Mark → Board × Mark
  | 0, s => s
  | n + 1, s => hardSelfPlay n (hardSelfPlayStep s)

/-! The positions of the deterministic Hard-vs-Hard game, written as
explicit `placeMark` chains; `hardTrace` is proved below to follow
exactly this line of play. -/

/-- Hard-vs-Hard position after 1 ply. -/
def tb1 : Board := emptyBoard.placeMark ⟨0, 0⟩ .X

/-- Hard-vs-Hard position after 2 plies. -/
def tb2 : Board := tb1.placeMark ⟨1, 1⟩ .O

/-- Hard-vs-Hard position after 3 plies. -/
def tb3 : Board := tb2.placeMark ⟨0, 1⟩ .X

/-- Hard-vs-Hard position after 4 plies. -/
def tb4 : Board := tb3.placeMark ⟨0, 2⟩ .O

/-- Hard-vs-Hard position after 5 plies. -/
def tb5 : Board := tb4.placeMark ⟨2, 0⟩ .X

/-- Hard-vs-Hard position after 6 plies. -/
def tb6 : Board := tb5.placeMark ⟨1, 0⟩ .O

/-- Hard-vs-Hard position after 7 plies. -/
def tb7 : Board := tb6.placeMark ⟨1, 2⟩ .X

/-- Hard-vs-Hard position after 8 plies. -/
def tb8 : Board := tb7.placeMark ⟨2, 1⟩ .O

/-- Hard-vs-Hard position after 9 plies: the final drawn board. -/
def tb9 : Board := tb8.placeMark ⟨2, 2⟩ .X

/-! ## `ai_opponent.py`: strategy factory, personality, opponent -/

/-- The three stateless strategy objects the factory can build. -/
inductive StrategyKind where
  | easy : StrategyKind
  | medium : StrategyKind
  | hard : StrategyKind
deriving DecidableEq, Repr

/-- Python `str.lower`, written as a character map so that it reduces
in the kernel (`String.toLower` hides a non-reducible auxiliary). -/
def strLower (s : String) : String := ⟨s.data.map Char.toLower⟩

/-- `AIStrategyFactory.create_strategy`: case-insensitive dispatch on
the difficulty string, `ValueError` otherwise. -/
def createStrategy (difficulty : String) : Except GameError StrategyKind :=
  if strLower difficulty = "easy" then .ok .easy
  else if strLower difficulty = "medium" then .ok .medium
  else if strLower difficulty = "hard" then .ok .hard
  else .error .invalidDifficulty

/-- Dispatch `strategy.find_best_move(board, mark)`. -/
def runStrategy (s : StrategyKind) (b : Board) (mark : Mark) (g : Rng) :
    Option Move × Rng :=
  match s with
  | .easy => EasyAIStrategy.find_best_move b g
  | .medium => MediumAIStrategy.find_best_move b mark g
  | .hard => (HardAIStrategy.find_best_move b mark, g)

/-- `AIPersonality`: the clamped randomness factor.  The preference
table is static and lives in `movePreferences`. -/
structure AIPersonality where
  randomness_factor : ℚ
deriving DecidableEq, Repr

/-- `AIPersonality.__init__`: clamp the factor into `[0, 1]`. -/
def AIPersonality.create (randomness_factor : ℚ) : AIPersonality :=
  ⟨max 0 (min 1 randomness_factor)⟩

/-- `self.move_preferences.get((x, y), 1.0)`: corners 1.2, centre 1.5,
edges 1.0, default 1.0. -/
def movePreferences (x y : Nat) : ℚ :=
  if x = 0 ∧ y = 0 then 6/5
  else if x = 0 ∧ y = 2 then 6/5
  else if x = 2 ∧ y = 0 then 6/5
  else if x = 2 ∧ y = 2 then 6/5
  else if x = 1 ∧ y = 1 then 3/2
  else 1

/-- `AIPersonality.should_make_suboptimal_move`:
`random.random() < self.randomness_factor`. -/
def AIPersonality.should_make_suboptimal_move (p : AIPersonality) (g : Rng) :
    Bool × Rng :=
  let (r, g1) := g.nextReal
  (decide (r < p.randomness_factor), g1)

/-- The cumulative-weight walk inside `adjust_move`: accumulate `upto`
and return the first candidate with `upto >= r`; `none` when the walk
falls through (only possible when `r` exceeds the total weight). -/
def weightedPick (r : ℚ) : List (Move × ℚ) → ℚ → Option Move
  | [], _ => none
  | (mv, w) :: rest, upto =>
    let upto2 := upto + w
    if r ≤ upto2 then some mv else weightedPick r rest upto2

/-- `AIPersonality.adjust_move`.  The suggested move is an `Option`
because `find_best_move` can return `None`; Python's `move !=
suggested_move` is true whenever `suggested_move` is `None`, matching
inequality of `Option Move`. -/
def AIPersonality.adjust_move (p : AIPersonality) (suggested_move : Option Move)
    (b : Board) (g : Rng) : Option Move × Rng :=
  let empty_cells := b.get_empty_cells
  if empty_cells.length ≤ 1 then (suggested_move, g)
  else
    let suboptimal_candidates :=
      empty_cells.filter fun mv => decide (some mv ≠ suggested_move)
    if suboptimal_candidates.isEmpty then (suggested_move, g)
    else
      let weighted_candidates :=
        suboptimal_candidates.map fun mv => (mv, movePreferences mv.x mv.y)
      let total_weight := (weighted_candidates.map fun c => c.2).sum
      let (r, g1) := g.nextReal
      match weightedPick r weighted_candidates 0 with
      | some mv => (some mv, g1)
      | none => randomChoice g1 suboptimal_candidates

/-- `AIOpponent`: difficulty string, marks, built strategy, personality. -/
structure AIOpponent where
  difficulty_level : String
  player_mark : Mark
  ai_mark : Mark
  strategy : StrategyKind
  personality : AIPersonality
deriving Repr

/-- `AIOpponent.__init__`: builds the strategy (which may raise
`InvalidDifficulty`, in which case no opponent object is produced) and
a personality with randomness factor `0.1`. -/
def AIOpponent.create (difficulty : String) (player_mark : Mark) :
    Except GameError AIOpponent :=
  (createStrategy difficulty).map fun s =>
    { difficulty_level := difficulty
      player_mark := player_mark
      ai_mark := player_mark.opp
      strategy := s
      personality := AIPersonality.create (1/10) }

/-- `AIOpponent.make_move`: ask the strategy, then let the personality
possibly replace the suggestion. -/
def AIOpponent.make_move (o : AIOpponent) (b : Board) (g : Rng) :
    Option Move × Rng :=
  let sres := runStrategy o.strategy b o.ai_mark g
  let suggested_move := sres.1
  let pres := o.personality.should_make_suboptimal_move sres.2
  if pres.1 then o.personality.adjust_move suggested_move b pres.2
  else (suggested_move, pres.2)

/-- `AIOpponent.set_difficulty`: Python assigns `difficulty_level`
before `create_strategy` may raise, so the failed call still updates
the stored difficulty string. -/
def AIOpponent.set_difficulty (o : AIOpponent) (difficulty : String) :
    AIOpponent × Except GameError Unit :=
  let o1 := { o with difficulty_level := difficulty }
  match createStrategy difficulty with
  | .ok s => ({ o1 with strategy := s }, .ok ())
  | .error e => (o1, .error e)

/-- `AIOpponent.set_personality`: rebuild the personality. -/
def AIOpponent.set_personality (o : AIOpponent) (randomness_factor : ℚ) :
    AIOpponent :=
  { o with personality := AIPersonality.create randomness_factor }

/-- The candidate set of `adjust_move`: the empty cells other than the
suggested move (definitionally the list built inside `adjust_move`). -/
def suboptimalCandidates (b : Board) (suggested : Option Move) : List Move :=
  b.get_empty_cells.filter fun mv => decide (some mv ≠ suggested)

/-- The weighted candidate list of `adjust_move`. -/
def weightedCandidates (b : Board) (suggested : Option Move) : List (Move × ℚ) :=
  (suboptimalCandidates b suggested).map fun mv => (mv, movePreferences mv.x mv.y)

/-- The total weight drawn against in `adjust_move`. -/
def totalWeight (b : Board) (suggested : Option Move) : ℚ :=
  ((weightedCandidates b suggested).map fun c => c.2).sum

/-! ## `game_engine.py` -/

/-- The game-status strings of the engine. -/
inductive GameStatus where
  | not_started : GameStatus
  | in_progress : GameStatus
  | player_win : GameStatus
  | ai_win : GameStatus
  | draw : GameStatus
deriving DecidableEq, Repr

/-- `player_mark not in ['X', 'O']` and the subsequent use of the
validated string as a mark. -/
def markOfString (s : String) : Option Mark :=
  if s = "X" then some .X else if s = "O" then some .O else none

/-- The engine state.  Python initializes `board` to `None`; the board
is only ever read while a game is in progress, after `start_new_game`
installed a fresh one, so the unobservable initial board is modelled as
an empty board.  The other `None`-initialized fields are `Option`s. -/
structure GameEngine where
  board : Board
  current_player : Option Mark
  ai_opponent : Option AIOpponent
  game_status : GameStatus
  player_mark : Option Mark
  ai_mark : Option Mark

/-- `GameEngine.__init__`. -/
def GameEngine.init : GameEngine :=
  { board := emptyBoard
    current_player := none
    ai_opponent := none
    game_status := .not_started
    player_mark := none
    ai_mark := none }

/-- `GameEngine._update_game_status_after_move`: win of the mover, else
draw, else flip the current player. -/
def GameEngine.updateStatusAfterMove (e : GameEngine) (mark : Mark) : GameEngine :=
  if e.board.check_win mark then
    if some mark = e.player_mark then { e with game_status := .player_win }
    else { e with game_status := .ai_win }
  else if e.board.check_draw then { e with game_status := .draw }
  else
    let next : Mark := if e.current_player = some Mark.X then Mark.O else Mark.X
    { e with current_player := some next }

/-- `GameEngine._process_ai_move`.  The `none` fallbacks for the
opponent and the AI mark correspond to engine states that cannot be
reached through the public operations (a game in progress always has
both installed); Python would fail on the attribute access there. -/
def GameEngine.processAiMove (e : GameEngine) (g : Rng) :
    GameEngine × Rng × Except GameError (Option Move) :=
  if e.game_status ≠ .in_progress ∨ e.current_player ≠ e.ai_mark then (e, g, .ok none)
  else
    match e.ai_opponent with
    | none => (e, g, .ok none)
    | some opp =>
      match e.ai_mark with
      | none => (e, g, .ok none)
      | some am =>
        let res := opp.make_move e.board g
        let g1 := res.2
        match res.1 with
        | none => (e, g1, .ok none)
        | some mv =>
          match e.board.make_move mv am with
          | .error er => (e, g1, .error er)
          | .ok b2 =>
            let e2 := GameEngine.updateStatusAfterMove { e with board := b2 } am
            (e2, g1, .ok (some mv))

/-- The dictionary `start_new_game` returns. -/
structure StartView where
  board : Board
  current_player : Option Mark
  player_mark : Option Mark
  ai_mark : Option Mark
  game_status : GameStatus
  ai_move : Option Move

/-- The dictionary `player_move` returns. -/
structure MoveView where
  board : Board
  current_player : Option Mark
  game_status : GameStatus
  winning_line : Option (List Move)
  ai_move : Option Move

/-- The outcome of an engine operation: the engine state after the call
(including the partial mutations preceding an exception), the random
stream, and the returned value or raised error. -/
structure StepOut (α : Type) where
  engine : GameEngine
  rng : Rng
  out : Except GameError α

/-- `GameEngine.start_new_game`.  The mark validation precedes every
assignment; the board, the player mark and the AI mark are assigned
*before* the `AIOpponent` constructor can raise `InvalidDifficulty`, so
that failure leaves them overwritten. -/
def GameEngine.start_new_game (e : GameEngine) (player_mark difficulty : String)
    (g : Rng) : StepOut StartView :=
  match markOfString player_mark with
  | none => ⟨e, g, .error .invalidMark⟩
  | some pm =>
    let e1 := { e with
      board := emptyBoard
      player_mark := some pm
      ai_mark := some pm.opp }
    match AIOpponent.create difficulty pm with
    | .error er => ⟨e1, g, .error er⟩
    | .ok opp =>
      let e2 := { e1 with
        ai_opponent := some opp
        current_player := some Mark.X
        game_status := .in_progress }
      if pm.opp = .X then
        let r := e2.processAiMove g
        match r.2.2 with
        | .error er => ⟨r.1, r.2.1, .error er⟩
        | .ok mv =>
          ⟨r.1, r.2.1, .ok ⟨r.1.board, r.1.current_player, r.1.player_mark,
            r.1.ai_mark, r.1.game_status, mv⟩⟩
      else
        ⟨e2, g, .ok ⟨e2.board, e2.current_player, e2.player_mark, e2.ai_mark,
          e2.game_status, none⟩⟩

/-- `GameEngine.player_move`.  The checks run in source order: game in
progress, player's turn, then `Board.make_move` (whose error the source
re-raises with a prefixed message, keeping the failure kind).  The
`none` fallback for the player mark is unreachable through the public
operations (in progress implies marks installed). -/
def GameEngine.player_move (e : GameEngine) (x y : Nat) (g : Rng) :
    StepOut MoveView :=
  if e.game_status ≠ .in_progress then ⟨e, g, .error .gameNotInProgress⟩
  else if e.current_player ≠ e.player_mark then ⟨e, g, .error .wrongTurn⟩
  else
    let move : Move := ⟨x, y⟩
    match e.player_mark with
    | none => ⟨e, g, .error .wrongTurn⟩
    | some pm =>
      match e.board.make_move move pm with
      | .error er => ⟨e, g, .error er⟩
      | .ok b2 =>
        let e2 := GameEngine.updateStatusAfterMove { e with board := b2 } pm
        let r := if e2.game_status = .in_progress then e2.processAiMove g
                 else (e2, g, .ok none)
        match r.2.2 with
        | .error er => ⟨r.1, r.2.1, .error er⟩
        | .ok mv =>
          ⟨r.1, r.2.1, .ok ⟨r.1.board, r.1.current_player, r.1.game_status,
            r.1.board.get_winning_line, mv⟩⟩

/-- `GameEngine.change_difficulty`: `False` without an opponent,
otherwise delegate (possibly raising `InvalidDifficulty` after the
difficulty string was already updated). -/
def GameEngine.change_difficulty (e : GameEngine) (difficulty : String) :
    GameEngine × Except GameError Bool :=
  match e.ai_opponent with
  | none => (e, .ok false)
  | some o =>
    let (o1, r) := o.set_difficulty difficulty
    ({ e with ai_opponent := some o1 }, r.map fun _ => true)

/-- `GameEngine.set_ai_personality`. -/
def GameEngine.set_ai_personality (e : GameEngine) (randomness_factor : ℚ) :
    GameEngine × Bool :=
  match e.ai_opponent with
  | none => (e, false)
  | some o => ({ e with ai_opponent := some (o.set_personality randomness_factor) }, true)

/-- The engine state immediately after `start_new_game` installed the
fresh board, the marks, the opponent and the in-progress status. -/
def startedEngine (e : GameEngine) (pmk : Mark) (opp : AIOpponent) : GameEngine :=
  { e with
    board := emptyBoard
    player_mark := some pmk
    ai_mark := some pmk.opp
    ai_opponent := some opp
    current_player := some Mark.X
    game_status := .in_progress }

/-- The engine states reachable through the public operations, from a
fresh engine, with arbitrary arguments and random draws; failed
operations count (their partial mutations are observable states). -/
inductive Reachable : GameEngine → Prop where
  | init : Reachable GameEngine.init
  | start (e : GameEngine) (pm d : String) (g : Rng) :
      Reachable e → Reachable (e.start_new_game pm d g).engine
  | move (e : GameEngine) (x y : Nat) (g : Rng) :
      Reachable e → Reachable (e.player_move x y g).engine
  | chdiff (e : GameEngine) (d : String) :
      Reachable e → Reachable (e.change_difficulty d).1
  | setpers (e : GameEngine) (rf : ℚ) :
      Reachable e → Reachable (e.set_ai_personality rf).1

/-- No mark has a winning line on the board. -/
def NoWin (b : Board) : Prop :=
  b.check_win .X = false ∧ b.check_win .O = false

/-- The inductive invariant behind the at-most-one-winner property: a
game in progress has no winner at all, and in every state at most one
mark satisfies the win predicate. -/
def WinInv (e : GameEngine) : Prop :=
  (e.game_status = .in_progress → NoWin e.board) ∧
  ¬(e.board.check_win .X = true ∧ e.board.check_win .O = true)

/-- The fail-soft alpha-beta relation: how the pruned value `r` of a
node relates to its exhaustive minimax value `v` under the window
`(alpha, beta)`. -/
def KMrel (r v alpha beta : XInt) : Prop :=
  (r ≤ alpha → v ≤ r) ∧ (beta ≤ r → r ≤ v) ∧ (alpha < r → r < beta → r = v)

/-! # Theorems -/

/-! ## Board lemmas -/

theorem mem_get_empty_cells {b : Board} {mv : Move} :
    mv ∈ b.get_empty_cells ↔ ∃ i j : Fin 3, mv = ⟨i.1, j.1⟩ ∧ b i j = none := by
  simp only [Board.get_empty_cells, List.mem_flatMap, List.mem_filterMap,
    List.mem_finRange, true_and]
  constructor
  · rintro ⟨i, j, hj⟩
    by_cases h : b i j = none
    · rw [if_pos h] at hj
      exact ⟨i, j, (Option.some_inj.mp hj).symm, h⟩
    · rw [if_neg h] at hj
      exact absurd hj (Option.some_ne_none _).symm
  · rintro ⟨i, j, rfl, h⟩
    exact ⟨i, j, by rw [if_pos h]⟩

theorem make_move_of_mem {b : Board} {mv : Move} (m : Mark)
    (h : mv ∈ b.get_empty_cells) :
    b.make_move mv m = .ok (b.placeMark mv m) := by
  rcases mem_get_empty_cells.mp h with ⟨i, j, rfl, hij⟩
  have hb : (⟨(i.1 : Nat), i.2⟩ : Fin 3) = i := rfl
  simp only [Board.make_move]
  rw [dif_pos ⟨i.2, j.2⟩]
  simp only [Fin.eta, hij]
  simp

/-- Claim C8: placing a mark on an in-bounds empty cell and then
clearing the same cell restores the board to exactly its prior state. -/
theorem C8_make_undo_roundtrip (b : Board) (mv : Move) (m : Mark) (b2 : Board)
    (hmk : b.make_move mv m = .ok b2) :
    b2.undo_move mv = .ok b := by
  simp only [Board.make_move] at hmk
  by_cases hb : mv.x < 3 ∧ mv.y < 3
  · rw [dif_pos hb] at hmk
    by_cases hocc : b ⟨mv.x, hb.1⟩ ⟨mv.y, hb.2⟩ = none
    · simp only [hocc, ne_eq, not_true_eq_false, if_neg, not_not] at hmk
      rw [if_neg (by simp [hocc])] at hmk
      cases hmk
      simp only [Board.undo_move, if_pos hb]
      congr 1
      funext i j
      simp only [Board.clearCell, Board.placeMark]
      by_cases hij : mv.x = i.1 ∧ mv.y = j.1
      · rw [if_pos hij]
        have hi : (⟨mv.x, hb.1⟩ : Fin 3) = i := Fin.ext hij.1
        have hj : (⟨mv.y, hb.2⟩ : Fin 3) = j := Fin.ext hij.2
        rw [hi, hj] at hocc
        exact hocc.symm
      · rw [if_neg hij, if_neg hij]
    · rw [if_pos (by simpa using hocc)] at hmk
      cases hmk
  · rw [dif_neg hb] at hmk
    cases hmk

/-- Witness for C8 at a concrete board and move. -/
theorem C8_make_undo_roundtrip_witness :
    emptyBoard.make_move ⟨0, 0⟩ .X = .ok (emptyBoard.placeMark ⟨0, 0⟩ .X) ∧
    (emptyBoard.placeMark ⟨0, 0⟩ .X).undo_move ⟨0, 0⟩ = .ok emptyBoard :=
  ⟨rfl, C8_make_undo_roundtrip emptyBoard ⟨0, 0⟩ .X _ rfl⟩

/-! ## C10: status update and the current player -/

/-- Claim C10: when `_update_game_status_after_move` is applied during a
game in progress on behalf of the mark that just moved (the current
player), a move that drives the game to a terminal status leaves the
current player unchanged — still the mover — while the current player
is flipped to the other mark exactly when the game remains in
progress. -/
theorem C10_terminal_keeps_current_player (e : GameEngine) (mark : Mark)
    (hst : e.game_status = .in_progress) (hcp : e.current_player = some mark) :
    ((e.updateStatusAfterMove mark).game_status = .player_win ∨
     (e.updateStatusAfterMove mark).game_status = .ai_win ∨
     (e.updateStatusAfterMove mark).game_status = .draw →
      (e.updateStatusAfterMove mark).current_player = some mark) ∧
    ((e.updateStatusAfterMove mark).game_status = .in_progress →
      (e.updateStatusAfterMove mark).current_player = some mark.opp) := by
  unfold GameEngine.updateStatusAfterMove
  split_ifs with h1 h2 h3 h4
  · exact ⟨fun _ => hcp, fun h => by simp at h⟩
  · exact ⟨fun _ => hcp, fun h => by simp at h⟩
  · exact ⟨fun _ => hcp, fun h => by simp at h⟩
  · refine ⟨fun h => ?_, fun _ => ?_⟩
    · simp only [hst] at h
      rcases h with h | h | h <;> exact absurd h (by decide)
    · rw [hcp] at h4
      cases Option.some_inj.mp h4
      simp [Mark.opp]
  · refine ⟨fun h => ?_, fun _ => ?_⟩
    · simp only [hst] at h
      rcases h with h | h | h <;> exact absurd h (by decide)
    · rw [hcp] at h4
      cases mark
      · exact absurd rfl h4
      · simp [Mark.opp]

/-- Witness for C10 on a concrete in-progress engine state. -/
theorem C10_terminal_keeps_current_player_witness :
    (((⟨emptyBoard, some Mark.X, none, .in_progress, none, none⟩ :
        GameEngine).updateStatusAfterMove Mark.X).game_status = .player_win ∨
     ((⟨emptyBoard, some Mark.X, none, .in_progress, none, none⟩ :
        GameEngine).updateStatusAfterMove Mark.X).game_status = .ai_win ∨
     ((⟨emptyBoard, some Mark.X, none, .in_progress, none, none⟩ :
        GameEngine).updateStatusAfterMove Mark.X).game_status = .draw →
      ((⟨emptyBoard, some Mark.X, none, .in_progress, none, none⟩ :
        GameEngine).updateStatusAfterMove Mark.X).current_player = some Mark.X) ∧
    (((⟨emptyBoard, some Mark.X, none, .in_progress, none, none⟩ :
        GameEngine).updateStatusAfterMove Mark.X).game_status = .in_progress →
      ((⟨emptyBoard, some Mark.X, none, .in_progress, none, none⟩ :
        GameEngine).updateStatusAfterMove Mark.X).current_player = some Mark.X.opp) :=
  C10_terminal_keeps_current_player _ Mark.X rfl rfl

/-! ## C6: out-of-bounds player move under each status -/

/-- Counterexample to claim C6 as stated: with game status `draw`, the
call `player_move(3, 0)` fails with `GameNotInProgress`, not with
`OutOfBounds`. -/
theorem C6_counterexample :
    errOf (((⟨emptyBoard, none, none, .draw, none, none⟩ :
        GameEngine).player_move 3 0 ⟨fun _ => 0, fun _ => 0, 0, 0⟩).out) =
      some .gameNotInProgress ∧
    GameError.gameNotInProgress ≠ GameError.outOfBounds :=
  ⟨rfl, by decide⟩

/-- Claim C6 (amended): `player_move(3, 0)` fails under every status,
but the error kind depends on the state: `GameNotInProgress` when the
status is not `in_progress`; `WrongTurn` when in progress but not the
player's turn; and `OutOfBounds` only when in progress and it is the
player's turn. -/
theorem C6_oob_move_failure_by_status (e : GameEngine) (g : Rng) :
    (e.game_status ≠ .in_progress →
      (e.player_move 3 0 g).out = .error .gameNotInProgress) ∧
    (e.game_status = .in_progress → e.current_player ≠ e.player_mark →
      (e.player_move 3 0 g).out = .error .wrongTurn) ∧
    (∀ p : Mark, e.game_status = .in_progress →
      e.current_player = e.player_mark → e.player_mark = some p →
      (e.player_move 3 0 g).out = .error .outOfBounds) := by
  refine ⟨fun h => ?_, fun h1 h2 => ?_, fun p h1 h2 h3 => ?_⟩
  · simp [GameEngine.player_move, h]
  · simp [GameEngine.player_move, h1, h2]
  · simp only [GameEngine.player_move, h1, h2, h3]
    simp [Board.make_move]

/-- Witness for C6 (amended) on a drawn game. -/
theorem C6_oob_move_failure_by_status_witness :
    ((⟨emptyBoard, none, none, .draw, none, none⟩ : GameEngine).player_move 3 0
      ⟨fun _ => 0, fun _ => 0, 0, 0⟩).out = .error .gameNotInProgress :=
  (C6_oob_move_failure_by_status _ _).1 (by decide)

/-! ## C1: the Medium strategy with no immediate win or block -/

theorem randomChoice_nonempty {α : Type} (g : Rng) {l : List α} (h : l ≠ []) :
    ∃ a, (randomChoice g l).1 = some a ∧ a ∈ l := by
  have hlen : 0 < l.length := List.length_pos.mpr h
  have hlt : (g.nextInt.1 % l.length) < l.length := Nat.mod_lt _ hlen
  refine ⟨l.get ⟨_, hlt⟩, ?_, List.get_mem l _ _⟩
  simp [randomChoice, Rng.nextInt, List.getElem?_eq_getElem hlt]

/-- Claim C1: on a board with at least one empty cell, when neither the
AI mark nor the opponent mark has an immediate winning move,
`MediumAIStrategy.find_best_move` returns the centre `(1, 1)` when the
centre is empty, otherwise the `random.choice` over the full
empty-cell list — in particular it always returns some empty cell. -/
theorem C1_medium_policy (b : Board) (m : Mark) (g : Rng)
    (hne : b.get_empty_cells ≠ [])
    (hw : findWinningMove b m = none)
    (hblock : findWinningMove b m.opp = none) :
    (b 1 1 = none → MediumAIStrategy.find_best_move b m g = (some ⟨1, 1⟩, g)) ∧
    (b 1 1 ≠ none →
      MediumAIStrategy.find_best_move b m g = randomChoice g b.get_empty_cells) ∧
    (∃ mv, (MediumAIStrategy.find_best_move b m g).1 = some mv ∧
      mv ∈ b.get_empty_cells) := by
  have hie : b.get_empty_cells.isEmpty = false := by
    simpa [List.isEmpty_iff] using hne
  refine ⟨fun hc => ?_, fun hc => ?_, ?_⟩
  · simp [MediumAIStrategy.find_best_move, hw, hblock, hc]
  · simp [MediumAIStrategy.find_best_move, hw, hblock, hc, hie]
  · by_cases hc : b 1 1 = none
    · refine ⟨⟨1, 1⟩, ?_, ?_⟩
      · simp [MediumAIStrategy.find_best_move, hw, hblock, hc]
      · exact mem_get_empty_cells.mpr ⟨1, 1, rfl, hc⟩
    · rcases randomChoice_nonempty g hne with ⟨mv, hmv, hmem⟩
      refine ⟨mv, ?_, hmem⟩
      simp only [MediumAIStrategy.find_best_move, hw, hblock, hc, hie]
      simpa [hc, hie] using hmv

/-- Witness for C1 on the empty board: no winning or blocking move
exists, the centre is empty and is chosen. -/
theorem C1_medium_policy_witness :
    (emptyBoard 1 1 = none →
      MediumAIStrategy.find_best_move emptyBoard .X ⟨fun _ => 0, fun _ => 0, 0, 0⟩ =
        (some ⟨1, 1⟩, ⟨fun _ => 0, fun _ => 0, 0, 0⟩)) ∧
    (emptyBoard 1 1 ≠ none →
      MediumAIStrategy.find_best_move emptyBoard .X ⟨fun _ => 0, fun _ => 0, 0, 0⟩ =
        randomChoice ⟨fun _ => 0, fun _ => 0, 0, 0⟩ emptyBoard.get_empty_cells) ∧
    (∃ mv, (MediumAIStrategy.find_best_move emptyBoard .X
        ⟨fun _ => 0, fun _ => 0, 0, 0⟩).1 = some mv ∧
      mv ∈ emptyBoard.get_empty_cells) :=
  C1_medium_policy emptyBoard .X _ (by decide) (by decide) (by decide)

/-! ## C7: the personality's move adjustment -/

theorem movePreferences_pos (x y : Nat) : 0 < movePreferences x y := by
  unfold movePreferences
  split_ifs <;> norm_num

theorem weightedPick_mem {r : ℚ} :
    ∀ {l : List (Move × ℚ)} {upto : ℚ} {mv : Move},
      weightedPick r l upto = some mv → mv ∈ l.map fun c => c.1
  | [], _, _, h => by cases h
  | (m0, w0) :: rest, upto, mv, h => by
    simp only [weightedPick] at h
    split_ifs at h with hr
    · cases h
      simp
    · simp only [List.map_cons, List.mem_cons]
      exact Or.inr (weightedPick_mem h)

theorem weightedPick_total {r : ℚ} :
    ∀ {l : List (Move × ℚ)} {upto : ℚ}, l ≠ [] →
      (∀ c ∈ l, 0 < c.2) → r ≤ upto + (l.map fun c => c.2).sum →
      ∃ mv, weightedPick r l upto = some mv
  | [], _, h, _, _ => absurd rfl h
  | (m0, w0) :: rest, upto, _, hpos, hle => by
    simp only [weightedPick]
    split_ifs with hr
    · exact ⟨m0, rfl⟩
    · have hrest : rest ≠ [] := by
        rintro rfl
        simp only [List.map_cons, List.map_nil, List.sum_cons, List.sum_nil,
          add_zero] at hle
        exact hr (by linarith)
      refine weightedPick_total hrest (fun c hc => hpos c (List.mem_cons_of_mem _ hc)) ?_
      simp only [List.map_cons, List.sum_cons] at hle
      linarith

/-- Claim C7: `adjust_move` returns the suggested move unchanged when
fewer than two empty cells exist or when the candidate set excluding
the suggestion is empty; otherwise it returns an empty cell different
from the suggestion, and whenever the drawn value lies within the total
candidate weight the returned cell is the one picked by the
cumulative-weight walk. -/
theorem C7_adjust_move (p : AIPersonality) (s : Move) (b : Board) (g : Rng) :
    (b.get_empty_cells.length ≤ 1 →
      p.adjust_move (some s) b g = (some s, g)) ∧
    (suboptimalCandidates b (some s) = [] →
      p.adjust_move (some s) b g = (some s, g)) ∧
    (1 < b.get_empty_cells.length → suboptimalCandidates b (some s) ≠ [] →
      (∃ mv, (p.adjust_move (some s) b g).1 = some mv ∧
        mv ∈ b.get_empty_cells ∧ mv ≠ s) ∧
      (g.reals g.ridx ≤ totalWeight b (some s) →
        p.adjust_move (some s) b g =
          (weightedPick (g.reals g.ridx) (weightedCandidates b (some s)) 0,
            g.nextReal.2))) := by
  have hmem_cand : ∀ mv, mv ∈ suboptimalCandidates b (some s) →
      mv ∈ b.get_empty_cells ∧ mv ≠ s := by
    intro mv hmv
    have := List.mem_filter.mp hmv
    refine ⟨this.1, ?_⟩
    have h2 := this.2
    simp only [decide_eq_true_eq, ne_eq, Option.some_inj] at h2
    exact h2
  refine ⟨fun hlen => ?_, fun hcand => ?_, fun hlen hcand => ?_⟩
  · simp [AIPersonality.adjust_move, hlen]
  · by_cases hlen : b.get_empty_cells.length ≤ 1
    · simp [AIPersonality.adjust_move, hlen]
    · simp only [AIPersonality.adjust_move, if_neg hlen]
      rw [show (b.get_empty_cells.filter fun mv => decide (some mv ≠ some s)) =
        suboptimalCandidates b (some s) from rfl, hcand]
      simp
  · have hie : (suboptimalCandidates b (some s)).isEmpty = false := by
      simpa [List.isEmpty_iff] using hcand
    have hnle : ¬ b.get_empty_cells.length ≤ 1 := by omega
    constructor
    · simp only [AIPersonality.adjust_move, if_neg hnle]
      rw [show (b.get_empty_cells.filter fun mv => decide (some mv ≠ some s)) =
        suboptimalCandidates b (some s) from rfl, hie]
      simp only [Bool.false_eq_true, if_neg (by decide : ¬False)]
      rcases hpick : weightedPick (g.nextReal.1)
          ((suboptimalCandidates b (some s)).map fun mv =>
            (mv, movePreferences mv.x mv.y)) 0 with _ | mv
      · rcases randomChoice_nonempty g.nextReal.2 hcand with ⟨mv, hmv, hmvmem⟩
        rcases hmem_cand mv hmvmem with ⟨hm1, hm2⟩
        refine ⟨mv, ?_, hm1, hm2⟩
        simp [hpick, hmv]
      · have hmvmem : mv ∈ (((suboptimalCandidates b (some s)).map fun mv =>
            (mv, movePreferences mv.x mv.y)).map fun c => c.1) :=
          weightedPick_mem hpick
        simp only [List.map_map] at hmvmem
        have : mv ∈ suboptimalCandidates b (some s) := by
          simpa using hmvmem
        rcases hmem_cand mv this with ⟨hm1, hm2⟩
        refine ⟨mv, ?_, hm1, hm2⟩
        simp [hpick]
    · intro hr
      have hpos : ∀ c ∈ weightedCandidates b (some s), (0 : ℚ) < c.2 := by
        intro c hc
        rcases List.mem_map.mp hc with ⟨mv, _, rfl⟩
        exact movePreferences_pos _ _
      rcases @weightedPick_total (g.reals g.ridx) (weightedCandidates b (some s)) 0
          (by simpa [weightedCandidates, List.map_eq_nil_iff] using hcand)
          hpos (by simpa [totalWeight] using hr) with ⟨mv, hmv⟩
      simp only [AIPersonality.adjust_move, if_neg hnle]
      rw [show (b.get_empty_cells.filter fun mv => decide (some mv ≠ some s)) =
        suboptimalCandidates b (some s) from rfl, hie]
      simp only [Bool.false_eq_true, if_neg (by decide : ¬False)]
      rw [show ((suboptimalCandidates b (some s)).map fun mv =>
        (mv, movePreferences mv.x mv.y)) = weightedCandidates b (some s) from rfl]
      rw [show g.nextReal.1 = g.reals g.ridx from rfl, hmv]

/-- Witness for C7: empty board, suggestion `(0, 0)`, draw `1`. -/
theorem C7_adjust_move_witness :
    (emptyBoard.get_empty_cells.length ≤ 1 →
      (AIPersonality.create (1/10)).adjust_move (some ⟨0, 0⟩) emptyBoard
        ⟨fun _ => 1, fun _ => 0, 0, 0⟩ = (some ⟨0, 0⟩, ⟨fun _ => 1, fun _ => 0, 0, 0⟩)) ∧
    (suboptimalCandidates emptyBoard (some ⟨0, 0⟩) = [] →
      (AIPersonality.create (1/10)).adjust_move (some ⟨0, 0⟩) emptyBoard
        ⟨fun _ => 1, fun _ => 0, 0, 0⟩ = (some ⟨0, 0⟩, ⟨fun _ => 1, fun _ => 0, 0, 0⟩)) ∧
    (1 < emptyBoard.get_empty_cells.length →
      suboptimalCandidates emptyBoard (some ⟨0, 0⟩) ≠ [] →
      (∃ mv, ((AIPersonality.create (1/10)).adjust_move (some ⟨0, 0⟩) emptyBoard
          ⟨fun _ => 1, fun _ => 0, 0, 0⟩).1 = some mv ∧
        mv ∈ emptyBoard.get_empty_cells ∧ mv ≠ ⟨0, 0⟩) ∧
      ((⟨fun _ => 1, fun _ => 0, 0, 0⟩ : Rng).reals
          (⟨fun _ => 1, fun _ => 0, 0, 0⟩ : Rng).ridx ≤
            totalWeight emptyBoard (some ⟨0, 0⟩) →
        (AIPersonality.create (1/10)).adjust_move (some ⟨0, 0⟩) emptyBoard
            ⟨fun _ => 1, fun _ => 0, 0, 0⟩ =
          (weightedPick ((⟨fun _ => 1, fun _ => 0, 0, 0⟩ : Rng).reals
              (⟨fun _ => 1, fun _ => 0, 0, 0⟩ : Rng).ridx)
            (weightedCandidates emptyBoard (some ⟨0, 0⟩)) 0,
            (⟨fun _ => 1, fun _ => 0, 0, 0⟩ : Rng).nextReal.2))) :=
  C7_adjust_move (AIPersonality.create (1/10)) ⟨0, 0⟩ emptyBoard _

/-! ## Characterization lemmas for the engine operations -/

theorem processAiMove_eq_skip {e : GameEngine} (g : Rng)
    (h : e.game_status ≠ .in_progress ∨ e.current_player ≠ e.ai_mark) :
    e.processAiMove g = (e, g, .ok none) := by
  unfold GameEngine.processAiMove
  rw [if_pos h]

theorem processAiMove_eq_noOpp {e : GameEngine} (g : Rng)
    (h : ¬ (e.game_status ≠ .in_progress ∨ e.current_player ≠ e.ai_mark))
    (ho : e.ai_opponent = none) :
    e.processAiMove g = (e, g, .ok none) := by
  unfold GameEngine.processAiMove
  rw [if_neg h, ho]

theorem processAiMove_eq_noMark {e : GameEngine} (g : Rng) {opp : AIOpponent}
    (h : ¬ (e.game_status ≠ .in_progress ∨ e.current_player ≠ e.ai_mark))
    (ho : e.ai_opponent = some opp) (ham : e.ai_mark = none) :
    e.processAiMove g = (e, g, .ok none) := by
  unfold GameEngine.processAiMove
  rw [if_neg h, ho, ham]

theorem processAiMove_eq_noMove {e : GameEngine} (g : Rng) {opp : AIOpponent}
    {am : Mark}
    (h : ¬ (e.game_status ≠ .in_progress ∨ e.current_player ≠ e.ai_mark))
    (ho : e.ai_opponent = some opp) (ham : e.ai_mark = some am)
    (hmv : (opp.make_move e.board g).1 = none) :
    e.processAiMove g = (e, (opp.make_move e.board g).2, .ok none) := by
  unfold GameEngine.processAiMove
  rw [if_neg h, ho, ham]
  dsimp only
  rw [hmv]

theorem processAiMove_eq_moveError {e : GameEngine} (g : Rng) {opp : AIOpponent}
    {am : Mark} {mv : Move} {er : GameError}
    (h : ¬ (e.game_status ≠ .in_progress ∨ e.current_player ≠ e.ai_mark))
    (ho : e.ai_opponent = some opp) (ham : e.ai_mark = some am)
    (hmv : (opp.make_move e.board g).1 = some mv)
    (hb : e.board.make_move mv am = .error er) :
    e.processAiMove g = (e, (opp.make_move e.board g).2, .error er) := by
  unfold GameEngine.processAiMove
  rw [if_neg h, ho, ham]
  dsimp only
  rw [hmv]
  dsimp only
  rw [hb]

theorem processAiMove_eq_moveOk {e : GameEngine} (g : Rng) {opp : AIOpponent}
    {am : Mark} {mv : Move} {b2 : Board}
    (h : ¬ (e.game_status ≠ .in_progress ∨ e.current_player ≠ e.ai_mark))
    (ho : e.ai_opponent = some opp) (ham : e.ai_mark = some am)
    (hmv : (opp.make_move e.board g).1 = some mv)
    (hb : e.board.make_move mv am = .ok b2) :
    e.processAiMove g =
      (GameEngine.updateStatusAfterMove { e with board := b2 } am,
        (opp.make_move e.board g).2, .ok (some mv)) := by
  unfold GameEngine.processAiMove
  rw [if_neg h, ho, ham]
  dsimp only
  rw [hmv]
  dsimp only
  rw [hb]

theorem start_new_game_eq_invalidMark {e : GameEngine} {pm : String}
    (d : String) (g : Rng) (h : markOfString pm = none) :
    e.start_new_game pm d g = ⟨e, g, .error .invalidMark⟩ := by
  unfold GameEngine.start_new_game
  rw [h]

theorem start_new_game_eq_createError {e : GameEngine} {pm d : String}
    {pmk : Mark} {er : GameError} (g : Rng) (h : markOfString pm = some pmk)
    (hcr : AIOpponent.create d pmk = .error er) :
    e.start_new_game pm d g =
      ⟨{ e with
          board := emptyBoard
          player_mark := some pmk
          ai_mark := some pmk.opp }, g, .error er⟩ := by
  unfold GameEngine.start_new_game
  rw [h]
  dsimp only
  rw [hcr]

theorem start_new_game_eq_ok_playerFirst {e : GameEngine} {pm d : String}
    {pmk : Mark} {opp : AIOpponent} (g : Rng) (h : markOfString pm = some pmk)
    (hcr : AIOpponent.create d pmk = .ok opp) (hx : pmk.opp ≠ .X) :
    e.start_new_game pm d g =
      ⟨{ e with
          board := emptyBoard
          player_mark := some pmk
          ai_mark := some pmk.opp
          ai_opponent := some opp
          current_player := some Mark.X
          game_status := .in_progress }, g,
        .ok ⟨emptyBoard, some Mark.X, some pmk, some pmk.opp, .in_progress,
          none⟩⟩ := by
  unfold GameEngine.start_new_game
  rw [h]
  dsimp only
  rw [hcr]
  dsimp only
  rw [if_neg hx]

theorem start_new_game_eq_ok_aiFirst {e : GameEngine} {pm d : String}
    {pmk : Mark} {opp : AIOpponent} {e3 : GameEngine} {g1 : Rng}
    {mv : Option Move} (g : Rng) (h : markOfString pm = some pmk)
    (hcr : AIOpponent.create d pmk = .ok opp) (hx : pmk.opp = .X)
    (hpam : GameEngine.processAiMove
      { e with
        board := emptyBoard
        player_mark := some pmk
        ai_mark := some pmk.opp
        ai_opponent := some opp
        current_player := some Mark.X
        game_status := .in_progress } g =
      (e3, g1, .ok mv)) :
    e.start_new_game pm d g =
      ⟨e3, g1, .ok ⟨e3.board, e3.current_player, e3.player_mark, e3.ai_mark,
        e3.game_status, mv⟩⟩ := by
  unfold GameEngine.start_new_game
  rw [h]
  dsimp only
  rw [hcr]
  dsimp only
  rw [if_pos hx, hpam]

theorem player_move_eq_notInProgress {e : GameEngine} (x y : Nat) (g : Rng)
    (h : e.game_status ≠ .in_progress) :
    e.player_move x y g = ⟨e, g, .error .gameNotInProgress⟩ := by
  unfold GameEngine.player_move
  rw [if_pos h]

theorem player_move_eq_wrongTurn {e : GameEngine} (x y : Nat) (g : Rng)
    (h : ¬ e.game_status ≠ .in_progress)
    (ht : e.current_player ≠ e.player_mark) :
    e.player_move x y g = ⟨e, g, .error .wrongTurn⟩ := by
  unfold GameEngine.player_move
  rw [if_neg h, if_pos ht]

theorem player_move_eq_noMark {e : GameEngine} (x y : Nat) (g : Rng)
    (h : ¬ e.game_status ≠ .in_progress)
    (ht : ¬ e.current_player ≠ e.player_mark) (hp : e.player_mark = none) :
    e.player_move x y g = ⟨e, g, .error .wrongTurn⟩ := by
  unfold GameEngine.player_move
  rw [if_neg h, if_neg ht, hp]

theorem player_move_eq_moveError {e : GameEngine} {x y : Nat} (g : Rng)
    {p : Mark} {er : GameError} (h : ¬ e.game_status ≠ .in_progress)
    (ht : ¬ e.current_player ≠ e.player_mark) (hp : e.player_mark = some p)
    (hb : e.board.make_move ⟨x, y⟩ p = .error er) :
    e.player_move x y g = ⟨e, g, .error er⟩ := by
  unfold GameEngine.player_move
  rw [if_neg h, if_neg ht, hp]
  dsimp only
  rw [hb]

theorem player_move_eq_moveOk_terminal {e : GameEngine} {x y : Nat} (g : Rng)
    {p : Mark} {b2 : Board} (h : ¬ e.game_status ≠ .in_progress)
    (ht : ¬ e.current_player ≠ e.player_mark) (hp : e.player_mark = some p)
    (hb : e.board.make_move ⟨x, y⟩ p = .ok b2)
    (hterm : (GameEngine.updateStatusAfterMove { e with board := b2 }
      p).game_status ≠ .in_progress) :
    e.player_move x y g =
      ⟨GameEngine.updateStatusAfterMove { e with board := b2 } p, g,
        .ok ⟨(GameEngine.updateStatusAfterMove { e with board := b2 } p).board,
          (GameEngine.updateStatusAfterMove { e with board := b2 }
            p).current_player,
          (GameEngine.updateStatusAfterMove { e with board := b2 }
            p).game_status,
          (GameEngine.updateStatusAfterMove { e with board := b2 }
            p).board.get_winning_line, none⟩⟩ := by
  unfold GameEngine.player_move
  rw [if_neg h, if_neg ht, hp]
  dsimp only
  rw [hb]
  dsimp only
  rw [← hp, if_neg hterm]

theorem player_move_eq_moveOk_continue_error {e : GameEngine} {x y : Nat}
    {g : Rng} {p : Mark} {b2 : Board} {e3 : GameEngine} {g1 : Rng}
    {er : GameError}
    (h : ¬ e.game_status ≠ .in_progress)
    (ht : ¬ e.current_player ≠ e.player_mark) (hp : e.player_mark = some p)
    (hb : e.board.make_move ⟨x, y⟩ p = .ok b2)
    (hcont : (GameEngine.updateStatusAfterMove { e with board := b2 }
      p).game_status = .in_progress)
    (hpam : (GameEngine.updateStatusAfterMove { e with board := b2 }
      p).processAiMove g = (e3, g1, .error er)) :
    e.player_move x y g = ⟨e3, g1, .error er⟩ := by
  unfold GameEngine.player_move
  rw [if_neg h, if_neg ht, hp]
  dsimp only
  rw [hb]
  dsimp only
  rw [← hp, if_pos hcont, hpam]

theorem player_move_eq_moveOk_continue_ok {e : GameEngine} {x y : Nat}
    {g : Rng} {p : Mark} {b2 : Board} {e3 : GameEngine} {g1 : Rng}
    {mv : Option Move}
    (h : ¬ e.game_status ≠ .in_progress)
    (ht : ¬ e.current_player ≠ e.player_mark) (hp : e.player_mark = some p)
    (hb : e.board.make_move ⟨x, y⟩ p = .ok b2)
    (hcont : (GameEngine.updateStatusAfterMove { e with board := b2 }
      p).game_status = .in_progress)
    (hpam : (GameEngine.updateStatusAfterMove { e with board := b2 }
      p).processAiMove g = (e3, g1, .ok mv)) :
    e.player_move x y g = ⟨e3, g1, .ok ⟨e3.board, e3.current_player,
      e3.game_status, e3.board.get_winning_line, mv⟩⟩ := by
  unfold GameEngine.player_move
  rw [if_neg h, if_neg ht, hp]
  dsimp only
  rw [hb]
  dsimp only
  rw [← hp, if_pos hcont, hpam]

/-! ## C9: the freshly built opponent's personality -/

theorem processAiMove_preserves_opponent (e : GameEngine) (g : Rng) :
    (e.processAiMove g).1.ai_opponent = e.ai_opponent := by
  by_cases h : e.game_status ≠ .in_progress ∨ e.current_player ≠ e.ai_mark
  · rw [processAiMove_eq_skip g h]
  · rcases ho : e.ai_opponent with _ | opp
    · rw [processAiMove_eq_noOpp g h ho, ho]
    · rcases ham : e.ai_mark with _ | am
      · rw [processAiMove_eq_noMark g h ho ham, ho]
      · rcases hmv : (opp.make_move e.board g).1 with _ | mv
        · rw [processAiMove_eq_noMove g h ho ham hmv, ho]
        · rcases hb : e.board.make_move mv am with er | b2
          · rw [processAiMove_eq_moveError g h ho ham hmv hb, ho]
          · rw [processAiMove_eq_moveOk g h ho ham hmv hb]
            simp only [GameEngine.updateStatusAfterMove]
            split_ifs <;> exact ho

/-- Claim C9: every successful `start_new_game`, at any difficulty,
installs an `AIOpponent` whose personality has randomness factor
exactly `0.1` — so perturbation is never disabled, and each AI move is
replaced by a weighted suboptimal alternative exactly when the Bernoulli
draw falls below `0.1`. -/
theorem C9_personality_after_start (e : GameEngine) (pm d : String) (g : Rng)
    (hok : errOf (e.start_new_game pm d g).out = none) :
    ∃ o : AIOpponent, (e.start_new_game pm d g).engine.ai_opponent = some o ∧
      o.personality.randomness_factor = 1/10 ∧
      o.personality.randomness_factor ≠ 0 ∧
      (∀ g2 : Rng, (o.personality.should_make_suboptimal_move g2).1 =
        decide (g2.reals g2.ridx < 1/10)) := by
  have hfac : (AIPersonality.create (1/10)).randomness_factor = 1/10 := by
    simp only [AIPersonality.create]
    norm_num
  rcases hm : markOfString pm with _ | pmk
  · rw [start_new_game_eq_invalidMark d g hm] at hok
    exact absurd hok (by simp [errOf])
  · rcases hcr : AIOpponent.create d pmk with er | opp
    · rw [start_new_game_eq_createError g hm hcr] at hok
      exact absurd hok (by simp [errOf])
    · have hopp : opp.personality = AIPersonality.create (1/10) := by
        unfold AIOpponent.create at hcr
        rcases hcs : createStrategy d with er | sk
        · rw [hcs] at hcr
          cases hcr
        · rw [hcs] at hcr
          cases hcr
          rfl
      have hrest : opp.personality.randomness_factor = 1/10 ∧
          opp.personality.randomness_factor ≠ 0 ∧
          (∀ g2 : Rng, (opp.personality.should_make_suboptimal_move g2).1 =
            decide (g2.reals g2.ridx < 1/10)) := by
        refine ⟨by rw [hopp, hfac], by rw [hopp, hfac]; norm_num, fun g2 => ?_⟩
        simp only [AIPersonality.should_make_suboptimal_move, Rng.nextReal,
          hopp, hfac]
      refine ⟨opp, ?_, hrest.1, hrest.2.1, hrest.2.2⟩
      unfold GameEngine.start_new_game at hok ⊢
      rw [hm] at hok ⊢
      try dsimp only at hok
      try dsimp only
      rw [hcr] at hok ⊢
      try dsimp only at hok
      try dsimp only
      by_cases hx : pmk.opp = .X
      · rw [if_pos hx] at hok ⊢
        try dsimp only at hok
        try dsimp only
        split at hok
        · simp [errOf] at hok
        · dsimp only
          rw [processAiMove_preserves_opponent]
      · rw [if_neg hx]

/-- Witness for C9: a fresh engine, player X, Hard difficulty. -/
theorem C9_personality_after_start_witness :
    ∃ o : AIOpponent,
      (GameEngine.init.start_new_game "X" "hard"
        ⟨fun _ => 0, fun _ => 0, 0, 0⟩).engine.ai_opponent = some o ∧
      o.personality.randomness_factor = 1/10 ∧
      o.personality.randomness_factor ≠ 0 ∧
      (∀ g2 : Rng, (o.personality.should_make_suboptimal_move g2).1 =
        decide (g2.reals g2.ridx < 1/10)) :=
  C9_personality_after_start GameEngine.init "X" "hard" _ (by decide)

/-! ## C2: failed operations and the engine state -/

theorem randomChoice_mem {α : Type} {g : Rng} {l : List α} {a : α}
    (h : (randomChoice g l).1 = some a) : a ∈ l := by
  simp only [randomChoice, Rng.nextInt] at h
  rcases List.getElem?_eq_some.mp h with ⟨hlt, rfl⟩
  exact List.getElem_mem _

theorem rootLoop_mem (f : Move → XInt) :
    ∀ {l : List Move} {bs : XInt} {bm : Option Move} {mv : Move},
      (rootLoop f l bs bm).2 = some mv → mv ∈ l ∨ bm = some mv
  | [], _, _, _, h => Or.inr h
  | m0 :: rest, bs, bm, mv, h => by
    simp only [rootLoop] at h
    split_ifs at h with hlt
    · rcases rootLoop_mem f h with hmem | hbm
      · exact Or.inl (List.mem_cons_of_mem _ hmem)
      · cases hbm
        exact Or.inl (List.mem_cons_self _ _)
    · rcases rootLoop_mem f h with hmem | hbm
      · exact Or.inl (List.mem_cons_of_mem _ hmem)
      · exact Or.inr hbm

theorem hard_move_mem {b : Board} {m : Mark} {mv : Move}
    (h : HardAIStrategy.find_best_move b m = some mv) :
    mv ∈ b.get_empty_cells := by
  unfold HardAIStrategy.find_best_move hardRoot at h
  rcases rootLoop_mem _ h with hmem | hbm
  · exact hmem
  · cases hbm

theorem findWinningMove_mem {b : Board} {m : Mark} {mv : Move}
    (h : findWinningMove b m = some mv) : mv ∈ b.get_empty_cells :=
  List.mem_of_find?_eq_some h

theorem medium_eq_win {b : Board} {m : Mark} (g : Rng) {w : Move}
    (hw : findWinningMove b m = some w) :
    MediumAIStrategy.find_best_move b m g = (some w, g) := by
  unfold MediumAIStrategy.find_best_move
  dsimp only
  rw [hw]

theorem medium_eq_block {b : Board} {m : Mark} (g : Rng) {w : Move}
    (hw : findWinningMove b m = none) (hb : findWinningMove b m.opp = some w) :
    MediumAIStrategy.find_best_move b m g = (some w, g) := by
  unfold MediumAIStrategy.find_best_move
  dsimp only
  rw [hw]
  dsimp only
  rw [hb]

theorem medium_eq_center {b : Board} {m : Mark} (g : Rng)
    (hw : findWinningMove b m = none) (hb : findWinningMove b m.opp = none)
    (hc : b 1 1 = none) :
    MediumAIStrategy.find_best_move b m g = (some ⟨1, 1⟩, g) := by
  unfold MediumAIStrategy.find_best_move
  dsimp only
  rw [hw]
  dsimp only
  rw [hb]
  dsimp only
  rw [if_pos hc]

theorem medium_eq_random {b : Board} {m : Mark} (g : Rng)
    (hw : findWinningMove b m = none) (hb : findWinningMove b m.opp = none)
    (hc : ¬ b 1 1 = none) (hie : ¬ b.get_empty_cells.isEmpty = true) :
    MediumAIStrategy.find_best_move b m g = randomChoice g b.get_empty_cells := by
  unfold MediumAIStrategy.find_best_move
  dsimp only
  rw [hw]
  dsimp only
  rw [hb]
  dsimp only
  rw [if_neg hc, if_neg hie]

theorem medium_eq_full {b : Board} {m : Mark} (g : Rng)
    (hw : findWinningMove b m = none) (hb : findWinningMove b m.opp = none)
    (hc : ¬ b 1 1 = none) (hie : b.get_empty_cells.isEmpty = true) :
    MediumAIStrategy.find_best_move b m g = (none, g) := by
  unfold MediumAIStrategy.find_best_move
  dsimp only
  rw [hw]
  dsimp only
  rw [hb]
  dsimp only
  rw [if_neg hc, if_pos hie]

theorem medium_move_mem {b : Board} {m : Mark} {g : Rng} {mv : Move}
    (h : (MediumAIStrategy.find_best_move b m g).1 = some mv) :
    mv ∈ b.get_empty_cells := by
  rcases hw : findWinningMove b m with _ | w
  · rcases hb : findWinningMove b m.opp with _ | w2
    · by_cases hc : b 1 1 = none
      · rw [medium_eq_center g hw hb hc] at h
        cases h
        exact mem_get_empty_cells.mpr ⟨1, 1, rfl, hc⟩
      · by_cases hie : b.get_empty_cells.isEmpty = true
        · rw [medium_eq_full g hw hb hc hie] at h
          cases h
        · rw [medium_eq_random g hw hb hc hie] at h
          exact randomChoice_mem h
    · rw [medium_eq_block g hw hb] at h
      cases h
      exact findWinningMove_mem hb
  · rw [medium_eq_win g hw] at h
    cases h
    exact findWinningMove_mem hw

theorem easy_eq_full {b : Board} (g : Rng)
    (hie : b.get_empty_cells.isEmpty = true) :
    EasyAIStrategy.find_best_move b g = (none, g) := by
  unfold EasyAIStrategy.find_best_move
  dsimp only
  rw [if_pos hie]

theorem easy_eq_choice {b : Board} (g : Rng)
    (hie : ¬ b.get_empty_cells.isEmpty = true) :
    EasyAIStrategy.find_best_move b g = randomChoice g b.get_empty_cells := by
  unfold EasyAIStrategy.find_best_move
  dsimp only
  rw [if_neg hie]

theorem easy_move_mem {b : Board} {g : Rng} {mv : Move}
    (h : (EasyAIStrategy.find_best_move b g).1 = some mv) :
    mv ∈ b.get_empty_cells := by
  by_cases hie : b.get_empty_cells.isEmpty = true
  · rw [easy_eq_full g hie] at h
    cases h
  · rw [easy_eq_choice g hie] at h
    exact randomChoice_mem h

theorem runStrategy_mem {s : StrategyKind} {b : Board} {m : Mark} {g : Rng}
    {mv : Move} (h : (runStrategy s b m g).1 = some mv) :
    mv ∈ b.get_empty_cells := by
  cases s
  · exact easy_move_mem h
  · exact medium_move_mem h
  · exact hard_move_mem h

theorem adjust_eq_short {p : AIPersonality} {s : Option Move} {b : Board}
    (g : Rng) (hlen : b.get_empty_cells.length ≤ 1) :
    p.adjust_move s b g = (s, g) := by
  unfold AIPersonality.adjust_move
  dsimp only
  rw [if_pos hlen]

theorem adjust_eq_noCand {p : AIPersonality} {s : Option Move} {b : Board}
    (g : Rng) (hlen : ¬ b.get_empty_cells.length ≤ 1)
    (hie : (suboptimalCandidates b s).isEmpty = true) :
    p.adjust_move s b g = (s, g) := by
  unfold AIPersonality.adjust_move
  dsimp only
  rw [if_neg hlen,
    show (b.get_empty_cells.filter fun mv => decide (some mv ≠ s)) =
      suboptimalCandidates b s from rfl, if_pos hie]

theorem adjust_eq_pick {p : AIPersonality} {s : Option Move} {b : Board}
    {g : Rng} {mv : Move} (hlen : ¬ b.get_empty_cells.length ≤ 1)
    (hie : ¬ (suboptimalCandidates b s).isEmpty = true)
    (hpick : weightedPick g.nextReal.1 (weightedCandidates b s) 0 = some mv) :
    p.adjust_move s b g = (some mv, g.nextReal.2) := by
  unfold AIPersonality.adjust_move
  dsimp only
  rw [if_neg hlen,
    show (b.get_empty_cells.filter fun mv => decide (some mv ≠ s)) =
      suboptimalCandidates b s from rfl, if_neg hie,
    show ((suboptimalCandidates b s).map fun mv =>
      (mv, movePreferences mv.x mv.y)) = weightedCandidates b s from rfl,
    hpick]

theorem adjust_eq_fallback {p : AIPersonality} {s : Option Move} {b : Board}
    {g : Rng} (hlen : ¬ b.get_empty_cells.length ≤ 1)
    (hie : ¬ (suboptimalCandidates b s).isEmpty = true)
    (hpick : weightedPick g.nextReal.1 (weightedCandidates b s) 0 = none) :
    p.adjust_move s b g = randomChoice g.nextReal.2 (suboptimalCandidates b s) := by
  unfold AIPersonality.adjust_move
  dsimp only
  rw [if_neg hlen,
    show (b.get_empty_cells.filter fun mv => decide (some mv ≠ s)) =
      suboptimalCandidates b s from rfl, if_neg hie,
    show ((suboptimalCandidates b s).map fun mv =>
      (mv, movePreferences mv.x mv.y)) = weightedCandidates b s from rfl,
    hpick]

theorem mem_of_mem_suboptimal {b : Board} {s : Option Move} {mv : Move}
    (h : mv ∈ suboptimalCandidates b s) : mv ∈ b.get_empty_cells :=
  (List.mem_filter.mp h).1

theorem adjust_move_mem {p : AIPersonality} {s : Option Move} {b : Board}
    {g : Rng} {mv : Move} (h : (p.adjust_move s b g).1 = some mv) :
    mv ∈ b.get_empty_cells ∨ s = some mv := by
  by_cases hlen : b.get_empty_cells.length ≤ 1
  · rw [adjust_eq_short g hlen] at h
    exact Or.inr h
  · by_cases hie : (suboptimalCandidates b s).isEmpty = true
    · rw [adjust_eq_noCand g hlen hie] at h
      exact Or.inr h
    · rcases hpick : weightedPick g.nextReal.1 (weightedCandidates b s) 0
          with _ | mv2
      · rw [adjust_eq_fallback hlen hie hpick] at h
        exact Or.inl (mem_of_mem_suboptimal (randomChoice_mem h))
      · rw [adjust_eq_pick hlen hie hpick] at h
        cases h
        have hmem := weightedPick_mem hpick
        simp only [weightedCandidates, List.map_map] at hmem
        exact Or.inl (mem_of_mem_suboptimal (by simpa using hmem))

theorem opponent_move_mem {o : AIOpponent} {b : Board} {g : Rng} {mv : Move}
    (h : (o.make_move b g).1 = some mv) : mv ∈ b.get_empty_cells := by
  unfold AIOpponent.make_move at h
  dsimp only at h
  split_ifs at h with hperturb
  · rcases adjust_move_mem h with hm | hs
    · exact hm
    · exact runStrategy_mem hs
  · exact runStrategy_mem h

theorem processAiMove_ok (e : GameEngine) (g : Rng) :
    ∃ mv : Option Move, (e.processAiMove g).2.2 = .ok mv := by
  by_cases h : e.game_status ≠ .in_progress ∨ e.current_player ≠ e.ai_mark
  · rw [processAiMove_eq_skip g h]
    exact ⟨none, rfl⟩
  · rcases ho : e.ai_opponent with _ | opp
    · rw [processAiMove_eq_noOpp g h ho]
      exact ⟨none, rfl⟩
    · rcases ham : e.ai_mark with _ | am
      · rw [processAiMove_eq_noMark g h ho ham]
        exact ⟨none, rfl⟩
      · rcases hmv : (opp.make_move e.board g).1 with _ | mv
        · rw [processAiMove_eq_noMove g h ho ham hmv]
          exact ⟨none, rfl⟩
        · have hmem := opponent_move_mem hmv
          have hok := make_move_of_mem am hmem
          rw [processAiMove_eq_moveOk g h ho ham hmv hok]
          exact ⟨some mv, rfl⟩

theorem createStrategy_error_kind {d : String} {er : GameError}
    (h : createStrategy d = .error er) : er = .invalidDifficulty := by
  unfold createStrategy at h
  split_ifs at h <;> cases h <;> rfl

theorem opponent_create_error_kind {d : String} {pmk : Mark} {er : GameError}
    (h : AIOpponent.create d pmk = .error er) : er = .invalidDifficulty := by
  unfold AIOpponent.create at h
  rcases hcs : createStrategy d with er3 | sk
  · rw [hcs] at h
    cases h
    exact createStrategy_error_kind hcs
  · rw [hcs] at h
    cases h

/-- Counterexample to claim C2 as stated: `start_new_game` with an
invalid difficulty fails with `InvalidDifficulty` but has already
replaced the board (the occupied cell `(0, 0)` is empty afterwards). -/
theorem C2_counterexample :
    errOf ((⟨Board.placeMark emptyBoard ⟨0, 0⟩ .X, some Mark.O, none,
        .in_progress, some Mark.X, some Mark.O⟩ :
      GameEngine).start_new_game "X" "impossible"
        ⟨fun _ => 0, fun _ => 0, 0, 0⟩).out = some .invalidDifficulty ∧
    ((⟨Board.placeMark emptyBoard ⟨0, 0⟩ .X, some Mark.O, none,
        .in_progress, some Mark.X, some Mark.O⟩ :
      GameEngine).start_new_game "X" "impossible"
        ⟨fun _ => 0, fun _ => 0, 0, 0⟩).engine.board 0 0 ≠
      (⟨Board.placeMark emptyBoard ⟨0, 0⟩ .X, some Mark.O, none,
        .in_progress, some Mark.X, some Mark.O⟩ :
      GameEngine).board 0 0 := by
  constructor
  · rfl
  · intro h
    exact Option.noConfusion (h : (none : Cell) = some Mark.X)

/-- Claim C2 (amended): every failing `player_move` leaves the whole
engine state unchanged, and `start_new_game` failing with `InvalidMark`
leaves it unchanged; but `start_new_game` failing with
`InvalidDifficulty` has already replaced the board with a fresh empty
board and overwritten the player/AI marks — only the game status, the
current player and the installed opponent are untouched. -/
theorem C2_failure_frame :
    (∀ (e : GameEngine) (x y : Nat) (g : Rng) (er : GameError),
      (e.player_move x y g).out = .error er → (e.player_move x y g).engine = e) ∧
    (∀ (e : GameEngine) (pm d : String) (g : Rng),
      (e.start_new_game pm d g).out = .error .invalidMark →
      (e.start_new_game pm d g).engine = e) ∧
    (∀ (e : GameEngine) (pm d : String) (g : Rng),
      (e.start_new_game pm d g).out = .error .invalidDifficulty →
      (e.start_new_game pm d g).engine.game_status = e.game_status ∧
      (e.start_new_game pm d g).engine.current_player = e.current_player ∧
      (e.start_new_game pm d g).engine.ai_opponent = e.ai_opponent ∧
      (e.start_new_game pm d g).engine.board = emptyBoard) := by
  refine ⟨fun e x y g er h => ?_, fun e pm d g h => ?_, fun e pm d g h => ?_⟩
  · by_cases h1 : e.game_status ≠ .in_progress
    · rw [player_move_eq_notInProgress x y g h1]
    · by_cases h2 : e.current_player ≠ e.player_mark
      · rw [player_move_eq_wrongTurn x y g h1 h2]
      · rcases hp : e.player_mark with _ | p
        · rw [player_move_eq_noMark x y g h1 h2 hp]
        · rcases hb : e.board.make_move ⟨x, y⟩ p with er2 | b2
          · rw [player_move_eq_moveError g h1 h2 hp hb]
          · by_cases hcont : (GameEngine.updateStatusAfterMove
                { e with board := b2 } p).game_status = .in_progress
            · rcases hpam : (GameEngine.updateStatusAfterMove
                  { e with board := b2 } p).processAiMove g with ⟨e3, g1, res⟩
              have hok := processAiMove_ok
                (GameEngine.updateStatusAfterMove { e with board := b2 } p) g
              rw [hpam] at hok
              rcases hok with ⟨mv, hres⟩
              dsimp only at hres
              subst hres
              rw [player_move_eq_moveOk_continue_ok h1 h2 hp hb hcont hpam] at h
              cases h
            · rw [player_move_eq_moveOk_terminal g h1 h2 hp hb hcont] at h
              cases h
  · rcases hm : markOfString pm with _ | pmk
    · rw [start_new_game_eq_invalidMark d g hm]
    · rcases hcr : AIOpponent.create d pmk with er2 | opp
      · rw [start_new_game_eq_createError g hm hcr] at h
        rw [opponent_create_error_kind hcr] at h
        cases h
      · by_cases hx : pmk.opp = .X
        · rcases hpam : (startedEngine e pmk opp).processAiMove g with ⟨e3, g1, res⟩
          have hok := processAiMove_ok (startedEngine e pmk opp) g
          rw [hpam] at hok
          rcases hok with ⟨mv, hres⟩
          dsimp only at hres
          subst hres
          rw [start_new_game_eq_ok_aiFirst g hm hcr hx hpam] at h
          cases h
        · rw [start_new_game_eq_ok_playerFirst g hm hcr hx] at h
          cases h
  · rcases hm : markOfString pm with _ | pmk
    · rw [start_new_game_eq_invalidMark d g hm] at h
      cases h
    · rcases hcr : AIOpponent.create d pmk with er2 | opp
      · rw [start_new_game_eq_createError g hm hcr]
        exact ⟨rfl, rfl, rfl, rfl⟩
      · by_cases hx : pmk.opp = .X
        · rcases hpam : (startedEngine e pmk opp).processAiMove g with ⟨e3, g1, res⟩
          have hok := processAiMove_ok (startedEngine e pmk opp) g
          rw [hpam] at hok
          rcases hok with ⟨mv, hres⟩
          dsimp only at hres
          subst hres
          rw [start_new_game_eq_ok_aiFirst g hm hcr hx hpam] at h
          cases h
        · rw [start_new_game_eq_ok_playerFirst g hm hcr hx] at h
          cases h

/-- Witness for C2: a failing out-of-bounds move leaves a concrete
engine unchanged. -/
theorem C2_failure_frame_witness :
    ((⟨emptyBoard, some Mark.X, none, .in_progress, some Mark.X,
        some Mark.O⟩ : GameEngine).player_move 5 7
      ⟨fun _ => 0, fun _ => 0, 0, 0⟩).engine =
      ⟨emptyBoard, some Mark.X, none, .in_progress, some Mark.X,
        some Mark.O⟩ :=
  C2_failure_frame.1 _ 5 7 _ .outOfBounds rfl

/-! ## C5: at most one winner on every reachable board -/

theorem check_win_mono {b b2 : Board} {m : Mark}
    (hsub : ∀ i j, b2 i j = some m → b i j = some m)
    (h : b2.check_win m = true) : b.check_win m = true := by
  simp only [Board.check_win, Bool.or_eq_true, List.any_eq_true,
    List.all_eq_true, List.mem_finRange, true_implies, true_and,
    decide_eq_true_eq] at h ⊢
  rcases h with ((⟨x, hall⟩ | ⟨c, hall⟩) | hall) | hall
  · exact Or.inl (Or.inl (Or.inl ⟨x, fun y => hsub _ _ (hall y)⟩))
  · exact Or.inl (Or.inl (Or.inr ⟨c, fun r => hsub _ _ (hall r)⟩))
  · exact Or.inl (Or.inr fun i => hsub _ _ (hall i))
  · exact Or.inr fun i => hsub _ _ (hall i)

theorem mark_opp_ne (m : Mark) : m.opp ≠ m := by
  cases m <;> simp [Mark.opp]

theorem place_no_new_win {b : Board} {mv : Move} {mk m : Mark} (hne : m ≠ mk)
    (h : (b.placeMark mv mk).check_win m = true) : b.check_win m = true := by
  refine check_win_mono (fun i j hij => ?_) h
  simp only [Board.placeMark] at hij
  split_ifs at hij with hc
  · cases hij
    exact absurd rfl hne
  · exact hij

theorem empty_no_win (m : Mark) : emptyBoard.check_win m = false := by
  cases m <;> rfl

theorem make_move_ok_eq {b : Board} {mv : Move} {mk : Mark} {b2 : Board}
    (h : b.make_move mv mk = .ok b2) : b2 = b.placeMark mv mk := by
  unfold Board.make_move at h
  split_ifs at h with h1 h2 <;> cases h <;> rfl

theorem updateStatusAfterMove_inv (e : GameEngine) (mv : Move) (mk : Mark)
    (hst : e.game_status = .in_progress) (hnw : NoWin e.board) :
    WinInv (GameEngine.updateStatusAfterMove
      { e with board := e.board.placeMark mv mk } mk) := by
  have hopp : (e.board.placeMark mv mk).check_win mk.opp = false := by
    cases hcw : (e.board.placeMark mv mk).check_win mk.opp
    · rfl
    · have := place_no_new_win (mark_opp_ne mk) hcw
      cases mk
      · exact absurd this (by simp [Mark.opp, hnw.2])
      · exact absurd this (by simp [Mark.opp, hnw.1])
  have hboth : ¬((e.board.placeMark mv mk).check_win .X = true ∧
      (e.board.placeMark mv mk).check_win .O = true) := by
    rintro ⟨hX, hO⟩
    cases mk
    · simp only [Mark.opp] at hopp
      rw [hopp] at hO
      cases hO
    · simp only [Mark.opp] at hopp
      rw [hopp] at hX
      cases hX
  unfold GameEngine.updateStatusAfterMove
  split_ifs with h1 h2 h3
  · refine ⟨fun h => ?_, hboth⟩
    simp at h
  · refine ⟨fun h => ?_, hboth⟩
    simp at h
  · refine ⟨fun h => ?_, hboth⟩
    simp at h
  · refine ⟨fun _ => ?_, hboth⟩
    have hmk : (e.board.placeMark mv mk).check_win mk = false := by
      cases hcw : (e.board.placeMark mv mk).check_win mk
      · rfl
      · exact absurd hcw h1
    cases mk
    · simp only [Mark.opp] at hopp
      exact ⟨hmk, hopp⟩
    · simp only [Mark.opp] at hopp
      exact ⟨hopp, hmk⟩
  · refine ⟨fun _ => ?_, hboth⟩
    have hmk : (e.board.placeMark mv mk).check_win mk = false := by
      cases hcw : (e.board.placeMark mv mk).check_win mk
      · rfl
      · exact absurd hcw h1
    cases mk
    · simp only [Mark.opp] at hopp
      exact ⟨hmk, hopp⟩
    · simp only [Mark.opp] at hopp
      exact ⟨hopp, hmk⟩

theorem processAiMove_inv {e : GameEngine} (g : Rng) (hinv : WinInv e) :
    WinInv (e.processAiMove g).1 := by
  by_cases h : e.game_status ≠ .in_progress ∨ e.current_player ≠ e.ai_mark
  · rw [processAiMove_eq_skip g h]
    exact hinv
  · have hst : e.game_status = .in_progress := not_not.mp (not_or.mp h).1
    rcases ho : e.ai_opponent with _ | opp
    · rw [processAiMove_eq_noOpp g h ho]
      exact hinv
    · rcases ham : e.ai_mark with _ | am
      · rw [processAiMove_eq_noMark g h ho ham]
        exact hinv
      · rcases hmv : (opp.make_move e.board g).1 with _ | mv
        · rw [processAiMove_eq_noMove g h ho ham hmv]
          exact hinv
        · have hmem := opponent_move_mem hmv
          have hok := make_move_of_mem am hmem
          rw [processAiMove_eq_moveOk g h ho ham hmv hok]
          exact updateStatusAfterMove_inv e mv am hst (hinv.1 hst)

theorem winInv_of_board_empty {e2 : GameEngine} (hb : e2.board = emptyBoard) :
    WinInv e2 := by
  constructor
  · intro _
    rw [NoWin, hb]
    exact ⟨empty_no_win .X, empty_no_win .O⟩
  · rw [hb, empty_no_win .X]
    rintro ⟨h, _⟩
    cases h

theorem winInv_init : WinInv GameEngine.init :=
  winInv_of_board_empty rfl

theorem winInv_startedEngine (e : GameEngine) (pmk : Mark) (opp : AIOpponent) :
    WinInv (startedEngine e pmk opp) :=
  winInv_of_board_empty rfl

theorem start_new_game_inv (e : GameEngine) (pm d : String) (g : Rng)
    (hinv : WinInv e) : WinInv (e.start_new_game pm d g).engine := by
  rcases hm : markOfString pm with _ | pmk
  · rw [start_new_game_eq_invalidMark d g hm]
    exact hinv
  · rcases hcr : AIOpponent.create d pmk with er2 | opp
    · rw [start_new_game_eq_createError g hm hcr]
      exact winInv_of_board_empty rfl
    · by_cases hx : pmk.opp = .X
      · rcases hpam : (startedEngine e pmk opp).processAiMove g with ⟨e3, g1, res⟩
        have hok := processAiMove_ok (startedEngine e pmk opp) g
        rw [hpam] at hok
        rcases hok with ⟨mv, hres⟩
        dsimp only at hres
        subst hres
        rw [start_new_game_eq_ok_aiFirst g hm hcr hx hpam]
        have := @processAiMove_inv (startedEngine e pmk opp) g
          (winInv_startedEngine e pmk opp)
        rw [hpam] at this
        exact this
      · rw [start_new_game_eq_ok_playerFirst g hm hcr hx]
        exact winInv_startedEngine e pmk opp

theorem player_move_inv (e : GameEngine) (x y : Nat) (g : Rng)
    (hinv : WinInv e) : WinInv (e.player_move x y g).engine := by
  by_cases h1 : e.game_status ≠ .in_progress
  · rw [player_move_eq_notInProgress x y g h1]
    exact hinv
  · by_cases h2 : e.current_player ≠ e.player_mark
    · rw [player_move_eq_wrongTurn x y g h1 h2]
      exact hinv
    · rcases hp : e.player_mark with _ | p
      · rw [player_move_eq_noMark x y g h1 h2 hp]
        exact hinv
      · rcases hb : e.board.make_move ⟨x, y⟩ p with er2 | b2
        · rw [player_move_eq_moveError g h1 h2 hp hb]
          exact hinv
        · have hst : e.game_status = .in_progress := not_not.mp h1
          have hnw : NoWin e.board := hinv.1 hst
          have hb2 := make_move_ok_eq hb
          subst hb2
          have hinv2 := updateStatusAfterMove_inv e ⟨x, y⟩ p hst hnw
          by_cases hcont : (GameEngine.updateStatusAfterMove
              { e with board := e.board.placeMark ⟨x, y⟩ p } p).game_status =
              .in_progress
          · rcases hpam : (GameEngine.updateStatusAfterMove
                { e with board := e.board.placeMark ⟨x, y⟩ p }
                p).processAiMove g with ⟨e3, g1, res⟩
            have hok := processAiMove_ok (GameEngine.updateStatusAfterMove
              { e with board := e.board.placeMark ⟨x, y⟩ p } p) g
            rw [hpam] at hok
            rcases hok with ⟨mv, hres⟩
            dsimp only at hres
            subst hres
            rw [player_move_eq_moveOk_continue_ok h1 h2 hp hb hcont hpam]
            have := @processAiMove_inv (GameEngine.updateStatusAfterMove
              { e with board := e.board.placeMark ⟨x, y⟩ p } p) g hinv2
            rw [hpam] at this
            exact this
          · rw [player_move_eq_moveOk_terminal g h1 h2 hp hb hcont]
            exact hinv2

theorem change_difficulty_inv (e : GameEngine) (d : String) (hinv : WinInv e) :
    WinInv (e.change_difficulty d).1 := by
  unfold GameEngine.change_difficulty
  rcases ho : e.ai_opponent with _ | opp
  · exact hinv
  · dsimp only
    exact hinv

theorem set_ai_personality_inv (e : GameEngine) (rf : ℚ) (hinv : WinInv e) :
    WinInv (e.set_ai_personality rf).1 := by
  unfold GameEngine.set_ai_personality
  rcases ho : e.ai_opponent with _ | opp
  · exact hinv
  · exact hinv

theorem winInv_of_reachable {e : GameEngine} (h : Reachable e) : WinInv e := by
  induction h with
  | init => exact winInv_init
  | start e pm d g _ ih => exact start_new_game_inv e pm d g ih
  | move e x y g _ ih => exact player_move_inv e x y g ih
  | chdiff e d _ ih => exact change_difficulty_inv e d ih
  | setpers e rf _ ih => exact set_ai_personality_inv e rf ih

/-- Claim C5: on every engine state reachable through the public
operations from a fresh engine, `check_win('X')` and `check_win('O')`
are never both true. -/
theorem C5_at_most_one_winner (e : GameEngine) (h : Reachable e) :
    ¬(e.board.check_win .X = true ∧ e.board.check_win .O = true) :=
  (winInv_of_reachable h).2

/-- Witness for C5 at the initial engine state. -/
theorem C5_at_most_one_winner_witness :
    ¬(GameEngine.init.board.check_win .X = true ∧
      GameEngine.init.board.check_win .O = true) :=
  C5_at_most_one_winner GameEngine.init Reachable.init

/-! ## C4: alpha-beta pruning computes the exhaustive minimax root -/

theorem XInt.negInf_le (a : XInt) : XInt.negInf ≤ a := by
  cases a <;> exact trivial

theorem XInt.le_posInf (a : XInt) : a ≤ XInt.posInf := by
  cases a <;> exact trivial

theorem XInt.negInf_lt_posInf : (XInt.negInf : XInt) < XInt.posInf :=
  lt_of_le_of_ne (XInt.negInf_le _) (by simp)

theorem KMrel_refl (r alpha beta : XInt) : KMrel r r alpha beta :=
  ⟨fun _ => le_refl r, fun _ => le_refl r, fun _ _ => rfl⟩

theorem plainMaxFold_cons (f : Move → XInt) (mv : Move) (l : List Move)
    (acc : XInt) :
    plainMaxFold f (mv :: l) acc = plainMaxFold f l (max acc (f mv)) := rfl

theorem plainMinFold_cons (f : Move → XInt) (mv : Move) (l : List Move)
    (acc : XInt) :
    plainMinFold f (mv :: l) acc = plainMinFold f l (min acc (f mv)) := rfl

theorem plainMaxFold_max (f : Move → XInt) :
    ∀ (l : List Move) (a c : XInt),
      plainMaxFold f l (max a c) = max a (plainMaxFold f l c)
  | [], a, c => rfl
  | mv :: l, a, c => by
    rw [plainMaxFold_cons, plainMaxFold_cons, max_assoc, plainMaxFold_max f l]

theorem plainMinFold_min (f : Move → XInt) :
    ∀ (l : List Move) (a c : XInt),
      plainMinFold f l (min a c) = min a (plainMinFold f l c)
  | [], a, c => rfl
  | mv :: l, a, c => by
    rw [plainMinFold_cons, plainMinFold_cons, min_assoc, plainMinFold_min f l]

theorem plainMaxFold_decomp (f : Move → XInt) (l : List Move) (m : XInt) :
    plainMaxFold f l m = max m (plainMaxFold f l .negInf) := by
  rw [← plainMaxFold_max]
  congr 1
  exact (max_eq_left (XInt.negInf_le m)).symm

theorem plainMinFold_decomp (f : Move → XInt) (l : List Move) (m : XInt) :
    plainMinFold f l m = min m (plainMinFold f l .posInf) := by
  rw [← plainMinFold_min]
  congr 1
  exact (min_eq_left (XInt.le_posInf m)).symm

theorem le_plainMaxFold (f : Move → XInt) (l : List Move) (m : XInt) :
    m ≤ plainMaxFold f l m := by
  rw [plainMaxFold_decomp]
  exact le_max_left _ _

theorem plainMinFold_le (f : Move → XInt) (l : List Move) (m : XInt) :
    plainMinFold f l m ≤ m := by
  rw [plainMinFold_decomp]
  exact min_le_left _ _

theorem abMaxFold_km (f : Move → XInt → XInt) (g : Move → XInt)
    (beta alpha0 : XInt) :
    ∀ (l : List Move) (m alpha : XInt),
      (∀ mv ∈ l, ∀ a : XInt, a < beta → KMrel (f mv a) (g mv) a beta) →
      alpha = max alpha0 m →
      alpha < beta →
      KMrel (abMaxFold f beta l m alpha) (plainMaxFold g l m) alpha0 beta := by
  intro l
  induction l with
  | nil =>
    intro m alpha hch hal hab
    exact KMrel_refl m alpha0 beta
  | cons mv rest ih =>
    intro m alpha hch hal hab
    obtain ⟨hca, hcb, hcc⟩ := hch mv (List.mem_cons_self _ _) alpha hab
    rw [plainMaxFold_cons]
    simp only [abMaxFold]
    by_cases hcut : beta ≤ max alpha (f mv alpha)
    · rw [if_pos hcut]
      have hbe : beta ≤ f mv alpha := by
        rcases le_max_iff.mp hcut with h | h
        · exact absurd (lt_of_lt_of_le hab h) (lt_irrefl _)
        · exact h
      have hgv : f mv alpha ≤ g mv := hcb hbe
      refine ⟨?_, ?_, ?_⟩
      · intro hra
        exfalso
        have h1 : beta ≤ max m (f mv alpha) := le_trans hbe (le_max_right _ _)
        have h2 : alpha0 ≤ alpha := by rw [hal]; exact le_max_left _ _
        exact absurd (lt_of_le_of_lt (le_trans h1 (le_trans hra h2)) hab)
          (lt_irrefl _)
      · intro _
        exact le_trans (max_le_max (le_refl m) hgv) (le_plainMaxFold g rest _)
      · intro _ hrb
        exfalso
        have h1 : beta ≤ max m (f mv alpha) := le_trans hbe (le_max_right _ _)
        exact absurd (lt_of_le_of_lt h1 hrb) (lt_irrefl _)
    · rw [if_neg hcut]
      have hacut : max alpha (f mv alpha) < beta := not_le.mp hcut
      have hrest : ∀ mv2 ∈ rest, ∀ a : XInt, a < beta →
          KMrel (f mv2 a) (g mv2) a beta :=
        fun mv2 hm => hch mv2 (List.mem_cons_of_mem _ hm)
      have hal2 : max alpha (f mv alpha) = max alpha0 (max m (f mv alpha)) := by
        rw [hal, max_assoc]
      have ihapp := ih (max m (f mv alpha)) (max alpha (f mv alpha)) hrest hal2 hacut
      rcases le_or_lt (f mv alpha) alpha with hle | hgt
      · have hgle : g mv ≤ f mv alpha := hca hle
        obtain ⟨iha, ihb, ihc⟩ := ihapp
        have hvv2 : plainMaxFold g rest (max m (g mv)) ≤
            plainMaxFold g rest (max m (f mv alpha)) := by
          rw [plainMaxFold_decomp g rest (max m (g mv)),
            plainMaxFold_decomp g rest (max m (f mv alpha))]
          exact max_le_max (max_le_max (le_refl m) hgle) (le_refl _)
        refine ⟨?_, ?_, ?_⟩
        · intro hra
          exact le_trans hvv2 (iha hra)
        · intro hbr
          have hr2 := ihb hbr
          rw [plainMaxFold_decomp g rest (max m (f mv alpha))] at hr2
          rw [plainMaxFold_decomp g rest (max m (g mv))]
          rcases le_max_iff.mp hr2 with h | h
          · exfalso
            have hm : m ≤ alpha := by rw [hal]; exact le_max_right _ _
            have hma : max m (f mv alpha) ≤ alpha := max_le hm hle
            exact absurd
              (lt_of_le_of_lt (le_trans hbr (le_trans h hma)) hab) (lt_irrefl _)
          · exact le_trans h (le_max_right _ _)
        · intro har hrb
          have hrv2 := ihc har hrb
          have hvr : plainMaxFold g rest (max m (g mv)) ≤
              abMaxFold f beta rest (max m (f mv alpha))
                (max alpha (f mv alpha)) :=
            le_trans hvv2 (le_of_eq hrv2.symm)
          refine le_antisymm ?_ hvr
          rw [hrv2]
          have har2 : alpha0 <
              max (max m (f mv alpha)) (plainMaxFold g rest .negInf) := by
            rw [plainMaxFold_decomp g rest (max m (f mv alpha))] at hrv2
            rw [← hrv2]
            exact har
          rw [plainMaxFold_decomp g rest (max m (f mv alpha)),
            plainMaxFold_decomp g rest (max m (g mv))]
          rcases max_choice (max m (f mv alpha)) (plainMaxFold g rest .negInf)
            with hc | hc
          · rw [hc]
            have hevm : f mv alpha ≤ m := by
              rcases max_choice m (f mv alpha) with hd | hd
              · exact max_eq_left_iff.mp hd
              · have haev : alpha0 < f mv alpha := by
                  rw [hc, hd] at har2
                  exact har2
                have h1 : f mv alpha ≤ max alpha0 m := by
                  rw [← hal]
                  exact hle
                rcases le_max_iff.mp h1 with h | h
                · exact absurd (lt_of_lt_of_le haev h) (lt_irrefl _)
                · exact h
            exact max_le (le_trans (le_max_left m (g mv)) (le_max_left _ _))
              (le_trans hevm (le_trans (le_max_left m (g mv)) (le_max_left _ _)))
          · rw [hc]
            exact le_max_right _ _
      · have hevb : f mv alpha < beta := lt_of_le_of_lt (le_max_right alpha _) hacut
        have hev : f mv alpha = g mv := hcc hgt hevb
        rw [← hev]
        exact ihapp

theorem abMinFold_km (f : Move → XInt → XInt) (g : Move → XInt)
    (alpha beta0 : XInt) :
    ∀ (l : List Move) (m beta : XInt),
      (∀ mv ∈ l, ∀ bt : XInt, alpha < bt → KMrel (f mv bt) (g mv) alpha bt) →
      beta = min beta0 m →
      alpha < beta →
      KMrel (abMinFold f alpha l m beta) (plainMinFold g l m) alpha beta0 := by
  intro l
  induction l with
  | nil =>
    intro m beta hch hbe hab
    exact KMrel_refl m alpha beta0
  | cons mv rest ih =>
    intro m beta hch hbeta hab
    obtain ⟨hca, hcb, hcc⟩ := hch mv (List.mem_cons_self _ _) beta hab
    rw [plainMinFold_cons]
    simp only [abMinFold]
    by_cases hcut : min beta (f mv beta) ≤ alpha
    · rw [if_pos hcut]
      have hle : f mv beta ≤ alpha := by
        rcases min_le_iff.mp hcut with h | h
        · exact absurd (lt_of_lt_of_le hab h) (lt_irrefl _)
        · exact h
      have hgv : g mv ≤ f mv beta := hca hle
      refine ⟨?_, ?_, ?_⟩
      · intro _
        exact le_trans (plainMinFold_le g rest _) (min_le_min (le_refl m) hgv)
      · intro hbr
        exfalso
        have h1 : min m (f mv beta) ≤ alpha := le_trans (min_le_right _ _) hle
        have h2 : beta ≤ beta0 := by rw [hbeta]; exact min_le_left _ _
        exact absurd (lt_of_lt_of_le (lt_of_le_of_lt (le_trans hbr h1) hab) h2)
          (lt_irrefl _)
      · intro har _
        exfalso
        have h1 : min m (f mv beta) ≤ alpha := le_trans (min_le_right _ _) hle
        exact absurd (lt_of_lt_of_le har h1) (lt_irrefl _)
    · rw [if_neg hcut]
      have hacut : alpha < min beta (f mv beta) := not_le.mp hcut
      have hrest : ∀ mv2 ∈ rest, ∀ bt : XInt, alpha < bt →
          KMrel (f mv2 bt) (g mv2) alpha bt :=
        fun mv2 hm => hch mv2 (List.mem_cons_of_mem _ hm)
      have hbeta2 : min beta (f mv beta) = min beta0 (min m (f mv beta)) := by
        rw [hbeta, min_assoc]
      have ihapp := ih (min m (f mv beta)) (min beta (f mv beta)) hrest hbeta2 hacut
      rcases le_or_lt beta (f mv beta) with hbe | hlt
      · have hgv : f mv beta ≤ g mv := hcb hbe
        obtain ⟨iha, ihb, ihc⟩ := ihapp
        have hvv2 : plainMinFold g rest (min m (f mv beta)) ≤
            plainMinFold g rest (min m (g mv)) := by
          rw [plainMinFold_decomp g rest (min m (f mv beta)),
            plainMinFold_decomp g rest (min m (g mv))]
          exact min_le_min (min_le_min (le_refl m) hgv) (le_refl _)
        refine ⟨?_, ?_, ?_⟩
        · intro hra
          have hr2 := iha hra
          rw [plainMinFold_decomp g rest (min m (f mv beta))] at hr2
          rw [plainMinFold_decomp g rest (min m (g mv))]
          rcases min_choice (min m (f mv beta)) (plainMinFold g rest .posInf)
            with hc | hc
          · rw [hc] at hr2
            rcases min_choice m (f mv beta) with hd | hd
            · exact le_trans (min_le_left _ _)
                (le_trans (min_le_left m (g mv))
                  (le_trans (le_of_eq hd.symm) hr2))
            · exfalso
              exact absurd
                (lt_of_le_of_lt
                  (le_trans hbe
                    (le_trans (le_of_eq hd.symm) (le_trans hr2 hra))) hab)
                (lt_irrefl _)
          · rw [hc] at hr2
            exact le_trans (min_le_right _ _) hr2
        · intro hbr
          exact le_trans (ihb hbr) hvv2
        · intro har hrb
          have hrv2 := ihc har hrb
          have hrv : abMinFold f alpha rest (min m (f mv beta))
              (min beta (f mv beta)) ≤ plainMinFold g rest (min m (g mv)) :=
            le_trans (le_of_eq hrv2) hvv2
          refine le_antisymm hrv ?_
          rw [hrv2]
          have hrb2 : min (min m (f mv beta)) (plainMinFold g rest .posInf)
              < beta0 := by
            rw [plainMinFold_decomp g rest (min m (f mv beta))] at hrv2
            rw [← hrv2]
            exact hrb
          rw [plainMinFold_decomp g rest (min m (f mv beta)),
            plainMinFold_decomp g rest (min m (g mv))]
          rcases min_choice (min m (f mv beta)) (plainMinFold g rest .posInf)
            with hc | hc
          · rw [hc]
            have hmev : m ≤ f mv beta := by
              rcases min_choice m (f mv beta) with hd | hd
              · exact min_eq_left_iff.mp hd
              · have hevb : f mv beta < beta0 := by
                  rw [hc, hd] at hrb2
                  exact hrb2
                have h1 : min beta0 m ≤ f mv beta := by
                  rw [← hbeta]
                  exact hbe
                rcases min_le_iff.mp h1 with h | h
                · exact absurd (lt_of_le_of_lt h hevb) (lt_irrefl _)
                · exact h
            rw [min_eq_left hmev]
            exact le_trans (min_le_left _ _) (min_le_left m (g mv))
          · rw [hc]
            exact min_le_right _ _
      · have haev : alpha < f mv beta := lt_of_lt_of_le hacut (min_le_right beta _)
        have hev : f mv beta = g mv := hcc haev hlt
        rw [← hev]
        exact ihapp

theorem minimax_km (em : Board → List Move) (ai opp : Mark) :
    ∀ (fuel : Nat) (b : Board) (depth : Nat) (im : Bool) (alpha beta : XInt),
      alpha < beta →
      KMrel (minimaxABGen em ai opp fuel b depth im alpha beta)
        (minimaxPlainGen em ai opp fuel b depth im) alpha beta := by
  intro fuel
  induction fuel with
  | zero =>
    intro b depth im alpha beta hab
    exact KMrel_refl _ _ _
  | succ fuel ih =>
    intro b depth im alpha beta hab
    simp only [minimaxABGen, minimaxPlainGen]
    split_ifs with h1 h2 h3 h4
    · exact KMrel_refl _ _ _
    · exact KMrel_refl _ _ _
    · exact KMrel_refl _ _ _
    · exact abMaxFold_km _ _ beta alpha (em b) .negInf alpha
        (fun mv _ a ha => ih (b.placeMark mv ai) (depth + 1) false a beta ha)
        (max_eq_left (XInt.negInf_le alpha)).symm hab
    · exact abMinFold_km _ _ alpha beta (em b) .posInf beta
        (fun mv _ bt hbt => ih (b.placeMark mv opp) (depth + 1) true alpha bt hbt)
        (min_eq_left (XInt.le_posInf beta)).symm hab

theorem minimax_full_window (em : Board → List Move) (ai opp : Mark)
    (fuel : Nat) (b : Board) (depth : Nat) (im : Bool) :
    minimaxABGen em ai opp fuel b depth im .negInf .posInf =
      minimaxPlainGen em ai opp fuel b depth im := by
  obtain ⟨ha, hb, hc⟩ :=
    minimax_km em ai opp fuel b depth im .negInf .posInf XInt.negInf_lt_posInf
  by_cases h1 :
      minimaxABGen em ai opp fuel b depth im .negInf .posInf ≤ XInt.negInf
  · have hveq : minimaxPlainGen em ai opp fuel b depth im = XInt.negInf :=
      le_antisymm (le_trans (ha h1) h1) (XInt.negInf_le _)
    rw [hveq]
    exact le_antisymm h1 (XInt.negInf_le _)
  · by_cases h2 :
        XInt.posInf ≤ minimaxABGen em ai opp fuel b depth im .negInf .posInf
    · have hveq : minimaxPlainGen em ai opp fuel b depth im = XInt.posInf :=
        le_antisymm (XInt.le_posInf _) (le_trans h2 (hb h2))
      rw [hveq]
      exact le_antisymm (XInt.le_posInf _) h2
    · exact hc (not_le.mp h1) (not_le.mp h2)

theorem rootLoop_congr (f g : Move → XInt) :
    ∀ (l : List Move) (bs : XInt) (bm : Option Move),
      (∀ mv ∈ l, f mv = g mv) →
      rootLoop f l bs bm = rootLoop g l bs bm
  | [], _, _, _ => rfl
  | mv :: rest, bs, bm, h => by
    simp only [rootLoop]
    rw [h mv (List.mem_cons_self _ _)]
    split_ifs with hlt
    · exact rootLoop_congr f g rest (g mv) (some mv)
        (fun mv2 hm => h mv2 (List.mem_cons_of_mem _ hm))
    · exact rootLoop_congr f g rest bs bm
        (fun mv2 hm => h mv2 (List.mem_cons_of_mem _ hm))

/-- C4: for every board and mark, the Hard strategy's alpha-beta search
returns exactly the root score and root move of the exhaustive
depth-adjusted minimax over the same move enumeration: pruning never
changes the selected move. -/
theorem C4_alphabeta_eq_minimax (b : Board) (m : Mark) :
    hardRoot b m = plainRoot b m ∧
      HardAIStrategy.find_best_move b m = (plainRoot b m).2 := by
  have hr : hardRoot b m = plainRoot b m := by
    unfold hardRoot plainRoot
    exact rootLoop_congr _ _ b.get_empty_cells .negInf none
      (fun mv _ => minimax_full_window Board.get_empty_cells m m.opp 9
        (b.placeMark mv m) 0 false)
  exact ⟨hr, by unfold HardAIStrategy.find_best_move; rw [hr]⟩

/-! ## C3: Hard-vs-Hard self-play ends in a draw -/

set_option maxHeartbeats 4000000 in
set_option maxRecDepth 4000 in
theorem fastEmpties_perm (b : Board) : List.Perm (fastEmpties b) b.get_empty_cells := by
  have key : ∀ (e : Fin 3 → Fin 3 → Bool),
      List.Perm
        ((prefPairs.filter fun p => e p.1 p.2).map fun p => (⟨p.1.1, p.2.1⟩ : Move))
        (([0, 1, 2] : List (Fin 3)).flatMap fun x =>
          ([0, 1, 2] : List (Fin 3)).filterMap fun y =>
            if e x y then some ⟨x.1, y.1⟩ else none) := by decide
  have h := key fun i j => decide (b i j = none)
  unfold fastEmpties Board.get_empty_cells
  rw [show List.finRange 3 = [0, 1, 2] by decide]
  simpa only [decide_eq_true_eq] using h

set_option maxHeartbeats 4000000 in
set_option maxRecDepth 4000 in
theorem winB_eq (b : Board) (m : Mark) : winB b m = b.check_win m := by
  have key : ∀ (e : Fin 3 → Fin 3 → Bool),
      ((e 0 0 && e 0 1 && e 0 2) ||
       (e 1 0 && e 1 1 && e 1 2) ||
       (e 2 0 && e 2 1 && e 2 2) ||
       (e 0 0 && e 1 0 && e 2 0) ||
       (e 0 1 && e 1 1 && e 2 1) ||
       (e 0 2 && e 1 2 && e 2 2) ||
       (e 0 0 && e 1 1 && e 2 2) ||
       (e 0 2 && e 1 1 && e 2 0)) =
      (((List.finRange 3).any fun x =>
        (List.finRange 3).all fun y => e x y) ||
      ((List.finRange 3).any fun col =>
        (List.finRange 3).all fun row => e row col) ||
      ((List.finRange 3).all fun i => e i i) ||
      ((List.finRange 3).all fun i => e i ⟨2 - i.1, by omega⟩)) := by decide
  exact key fun i j => decide (b i j = some m)

set_option maxHeartbeats 4000000 in
set_option maxRecDepth 4000 in
theorem drawB_eq (b : Board) : drawB b = b.check_draw := by
  have key : ∀ (e : Fin 3 → Fin 3 → Bool),
      (e 0 0 && e 0 1 && e 0 2 &&
       e 1 0 && e 1 1 && e 1 2 &&
       e 2 0 && e 2 1 && e 2 2) =
      ((List.finRange 3).all fun x =>
        (List.finRange 3).all fun y => e x y) := by decide
  exact key fun i j => decide (b i j ≠ none)

set_option maxHeartbeats 4000000 in
set_option maxRecDepth 4000 in
theorem emptiesB_eq (b : Board) : emptiesB b = fastEmpties b := by
  have key : ∀ (e : Fin 3 → Fin 3 → Bool),
      (let l8 : List Move := bif e 2 1 then [⟨2, 1⟩] else []
       let l7 : List Move := bif e 1 2 then ⟨1, 2⟩ :: l8 else l8
       let l6 : List Move := bif e 1 0 then ⟨1, 0⟩ :: l7 else l7
       let l5 : List Move := bif e 0 1 then ⟨0, 1⟩ :: l6 else l6
       let l4 : List Move := bif e 2 2 then ⟨2, 2⟩ :: l5 else l5
       let l3 : List Move := bif e 2 0 then ⟨2, 0⟩ :: l4 else l4
       let l2 : List Move := bif e 0 2 then ⟨0, 2⟩ :: l3 else l3
       let l1 : List Move := bif e 0 0 then ⟨0, 0⟩ :: l2 else l2
       bif e 1 1 then ⟨1, 1⟩ :: l1 else l1) =
      (prefPairs.filter fun p => e p.1 p.2).map
        fun p => (⟨p.1.1, p.2.1⟩ : Move) := by decide
  exact key fun i j => decide (b i j = none)

theorem XInt.max_rc (z a b : XInt) : max (max z a) b = max (max z b) a := by
  rw [max_assoc, max_assoc, max_comm a b]

theorem XInt.min_rc (z a b : XInt) : min (min z a) b = min (min z b) a := by
  rw [min_assoc, min_assoc, min_comm a b]

theorem minimaxPlainGen_perm (em1 em2 : Board → List Move)
    (hp : ∀ b, List.Perm (em1 b) (em2 b)) (ai opp : Mark) :
    ∀ (fuel : Nat) (b : Board) (depth : Nat) (im : Bool),
      minimaxPlainGen em1 ai opp fuel b depth im =
        minimaxPlainGen em2 ai opp fuel b depth im := by
  intro fuel
  induction fuel with
  | zero => intro b depth im; rfl
  | succ fuel ih =>
    intro b depth im
    simp only [minimaxPlainGen]
    split_ifs with h1 h2 h3 h4
    · rfl
    · rfl
    · rfl
    · have hf : (fun mv =>
          minimaxPlainGen em1 ai opp fuel (b.placeMark mv ai) (depth + 1) false) =
          fun mv =>
            minimaxPlainGen em2 ai opp fuel (b.placeMark mv ai) (depth + 1) false :=
        funext fun mv => ih _ _ _
      rw [hf]
      unfold plainMaxFold
      exact (hp b).foldl_eq' (fun x _ y _ z => XInt.max_rc z _ _) _
    · have hf : (fun mv =>
          minimaxPlainGen em1 ai opp fuel (b.placeMark mv opp) (depth + 1) true) =
          fun mv =>
            minimaxPlainGen em2 ai opp fuel (b.placeMark mv opp) (depth + 1) true :=
        funext fun mv => ih _ _ _
      rw [hf]
      unfold plainMinFold
      exact (hp b).foldl_eq' (fun x _ y _ z => XInt.min_rc z _ _) _

theorem XInt.fin_lt_posInf (n : Int) : (XInt.fin n : XInt) < XInt.posInf :=
  lt_of_le_of_ne (XInt.le_posInf _) (by simp)

theorem max_fin {a b : XInt} (ha : ∃ n : Int, a = .fin n)
    (hb : ∃ n : Int, b = .fin n) : ∃ n : Int, max a b = .fin n := by
  rcases max_choice a b with h | h
  · rw [h]; exact ha
  · rw [h]; exact hb

theorem min_fin {a b : XInt} (ha : ∃ n : Int, a = .fin n)
    (hb : ∃ n : Int, b = .fin n) : ∃ n : Int, min a b = .fin n := by
  rcases min_choice a b with h | h
  · rw [h]; exact ha
  · rw [h]; exact hb

theorem plainMaxFold_fin (f : Move → XInt) :
    ∀ (l : List Move) (acc : XInt),
      (∀ mv ∈ l, ∃ n : Int, f mv = .fin n) → (∃ n : Int, acc = .fin n) →
      ∃ n : Int, plainMaxFold f l acc = .fin n
  | [], _, _, hacc => hacc
  | mv :: rest, acc, h, hacc => by
    rw [plainMaxFold_cons]
    exact plainMaxFold_fin f rest _
      (fun mv2 hm => h mv2 (List.mem_cons_of_mem _ hm))
      (max_fin hacc (h mv (List.mem_cons_self _ _)))

theorem plainMinFold_fin (f : Move → XInt) :
    ∀ (l : List Move) (acc : XInt),
      (∀ mv ∈ l, ∃ n : Int, f mv = .fin n) → (∃ n : Int, acc = .fin n) →
      ∃ n : Int, plainMinFold f l acc = .fin n
  | [], _, _, hacc => hacc
  | mv :: rest, acc, h, hacc => by
    rw [plainMinFold_cons]
    exact plainMinFold_fin f rest _
      (fun mv2 hm => h mv2 (List.mem_cons_of_mem _ hm))
      (min_fin hacc (h mv (List.mem_cons_self _ _)))

theorem fastEmpties_ne_nil {b : Board} (hd : b.check_draw = false) :
    fastEmpties b ≠ [] := by
  intro hnil
  unfold fastEmpties at hnil
  rw [List.map_eq_nil_iff, List.filter_eq_nil_iff] at hnil
  have hall : ∀ x y : Fin 3, b x y ≠ none := by
    intro x y
    have hmem : (x, y) ∈ prefPairs := by fin_cases x <;> fin_cases y <;> decide
    have h := hnil (x, y) hmem
    simpa using h
  have htrue : b.check_draw = true := by
    unfold Board.check_draw
    rw [List.all_eq_true]
    intro x _
    rw [List.all_eq_true]
    intro y _
    simpa using hall x y
  rw [htrue] at hd
  simp at hd

theorem minimaxPlainGen_fast_fin (ai opp : Mark) :
    ∀ (fuel : Nat) (b : Board) (depth : Nat) (im : Bool),
      ∃ n : Int, minimaxPlainGen fastEmpties ai opp fuel b depth im = .fin n := by
  intro fuel
  induction fuel with
  | zero => intro b depth im; exact ⟨0, rfl⟩
  | succ fuel ih =>
    intro b depth im
    simp only [minimaxPlainGen]
    split_ifs with h1 h2 h3 h4
    · exact ⟨10 - (depth : Int), rfl⟩
    · exact ⟨(depth : Int) - 10, rfl⟩
    · exact ⟨0, rfl⟩
    · have hne : fastEmpties b ≠ [] := fastEmpties_ne_nil (by
        cases hcd : b.check_draw
        · rfl
        · exact absurd hcd h3)
      rcases hl : fastEmpties b with _ | ⟨mv0, rest⟩
      · exact absurd hl hne
      · rw [plainMaxFold_cons]
        refine plainMaxFold_fin _ rest _ (fun mv2 _ => ih _ _ _) ?_
        rw [max_eq_right (XInt.negInf_le _)]
        exact ih _ _ _
    · have hne : fastEmpties b ≠ [] := fastEmpties_ne_nil (by
        cases hcd : b.check_draw
        · rfl
        · exact absurd hcd h3)
      rcases hl : fastEmpties b with _ | ⟨mv0, rest⟩
      · exact absurd hl hne
      · rw [plainMinFold_cons]
        refine plainMinFold_fin _ rest _ (fun mv2 _ => ih _ _ _) ?_
        rw [min_eq_right (XInt.le_posInf _)]
        exact ih _ _ _

theorem XInt.fin_le_fin {x y : Int} (h : x ≤ y) :
    (XInt.fin x : XInt) ≤ XInt.fin y := h

theorem le_plainMaxFold_of_mem (f : Move → XInt) :
    ∀ (l : List Move) (acc : XInt) (mv : Move), mv ∈ l →
      f mv ≤ plainMaxFold f l acc
  | [], _, _, hm => absurd hm (List.not_mem_nil _)
  | a :: rest, acc, mv, hm => by
    rw [plainMaxFold_cons]
    rcases List.mem_cons.mp hm with h | h
    · subst h
      exact le_trans (le_max_right acc (f mv)) (le_plainMaxFold f rest _)
    · exact le_plainMaxFold_of_mem f rest _ mv h

theorem plainMaxFold_le_of (f : Move → XInt) :
    ∀ (l : List Move) (acc M : XInt), (∀ mv ∈ l, f mv ≤ M) → acc ≤ M →
      plainMaxFold f l acc ≤ M
  | [], _, _, _, hacc => hacc
  | a :: rest, acc, M, h, hacc => by
    rw [plainMaxFold_cons]
    exact plainMaxFold_le_of f rest _ M
      (fun mv hm => h mv (List.mem_cons_of_mem _ hm))
      (max_le hacc (h a (List.mem_cons_self _ _)))

theorem plainMinFold_le_of_mem (f : Move → XInt) :
    ∀ (l : List Move) (acc : XInt) (mv : Move), mv ∈ l →
      plainMinFold f l acc ≤ f mv
  | [], _, _, hm => absurd hm (List.not_mem_nil _)
  | a :: rest, acc, mv, hm => by
    rw [plainMinFold_cons]
    rcases List.mem_cons.mp hm with h | h
    · subst h
      exact le_trans (plainMinFold_le f rest _) (min_le_right acc (f mv))
    · exact plainMinFold_le_of_mem f rest _ mv h

theorem le_plainMinFold_of (f : Move → XInt) :
    ∀ (l : List Move) (acc M : XInt), (∀ mv ∈ l, M ≤ f mv) → M ≤ acc →
      M ≤ plainMinFold f l acc
  | [], _, _, _, hacc => hacc
  | a :: rest, acc, M, h, hacc => by
    rw [plainMinFold_cons]
    exact le_plainMinFold_of f rest _ M
      (fun mv hm => h mv (List.mem_cons_of_mem _ hm))
      (le_min hacc (h a (List.mem_cons_self _ _)))

theorem plainFast_bounds (ai opp : Mark) :
    ∀ (fuel : Nat) (b : Board) (depth : Nat) (im : Bool),
      depth + fuel ≤ 10 →
      XInt.fin ((depth : Int) - 10) ≤
          minimaxPlainGen fastEmpties ai opp fuel b depth im ∧
        minimaxPlainGen fastEmpties ai opp fuel b depth im ≤
          .fin (10 - (depth : Int)) := by
  intro fuel
  induction fuel with
  | zero =>
    intro b depth im h10
    exact ⟨XInt.fin_le_fin (by omega), XInt.fin_le_fin (by omega)⟩
  | succ fuel ih =>
    intro b depth im h10
    simp only [minimaxPlainGen]
    split_ifs with h1 h2 h3 h4
    · exact ⟨XInt.fin_le_fin (by omega), XInt.fin_le_fin (by omega)⟩
    · exact ⟨XInt.fin_le_fin (by omega), XInt.fin_le_fin (by omega)⟩
    · exact ⟨XInt.fin_le_fin (by omega), XInt.fin_le_fin (by omega)⟩
    · have hne : fastEmpties b ≠ [] := fastEmpties_ne_nil (by
        cases hcd : b.check_draw
        · rfl
        · exact absurd hcd h3)
      constructor
      · rcases hl : fastEmpties b with _ | ⟨mv0, rest⟩
        · exact absurd hl hne
        · refine le_trans ?_
            (le_plainMaxFold_of_mem _ (mv0 :: rest) _ mv0
              (List.mem_cons_self _ _))
          exact le_trans (XInt.fin_le_fin (by push_cast; omega))
            ((ih (b.placeMark mv0 ai) (depth + 1) false (by omega)).1)
      · refine plainMaxFold_le_of _ _ _ _ ?_ (XInt.negInf_le _)
        intro mv hm
        exact le_trans ((ih (b.placeMark mv ai) (depth + 1) false (by omega)).2)
          (XInt.fin_le_fin (by push_cast; omega))
    · have hne : fastEmpties b ≠ [] := fastEmpties_ne_nil (by
        cases hcd : b.check_draw
        · rfl
        · exact absurd hcd h3)
      constructor
      · refine le_plainMinFold_of _ _ _ _ ?_ (XInt.le_posInf _)
        intro mv hm
        exact le_trans (XInt.fin_le_fin (by push_cast; omega))
          ((ih (b.placeMark mv opp) (depth + 1) true (by omega)).1)
      · rcases hl : fastEmpties b with _ | ⟨mv0, rest⟩
        · exact absurd hl hne
        · refine le_trans
            (plainMinFold_le_of_mem _ (mv0 :: rest) _ mv0
              (List.mem_cons_self _ _)) ?_
          exact le_trans ((ih (b.placeMark mv0 opp) (depth + 1) true (by omega)).2)
            (XInt.fin_le_fin (by push_cast; omega))

theorem plainFold_shortcut_max (ai opp : Mark) (fuel : Nat) (b : Board)
    (depth : Nat) (hf : 1 ≤ fuel) (h10 : depth + (fuel + 1) ≤ 10)
    (hwin : hasWinB b ai = true) :
    plainMaxFold
      (fun mv => minimaxPlainGen fastEmpties ai opp fuel (b.placeMark mv ai)
        (depth + 1) false)
      (fastEmpties b) .negInf = .fin (10 - ((depth : Int) + 1)) := by
  unfold hasWinB at hwin
  obtain ⟨mv, hmem, hw⟩ := List.any_eq_true.mp hwin
  rw [emptiesB_eq] at hmem
  have hwc : (b.placeMark mv ai).check_win ai = true := by
    rw [← winB_eq]
    exact hw
  have hcast : ((depth + 1 : Nat) : Int) = (depth : Int) + 1 := by omega
  have hchild : minimaxPlainGen fastEmpties ai opp fuel (b.placeMark mv ai)
      (depth + 1) false = .fin (10 - ((depth : Int) + 1)) := by
    rcases fuel with _ | f2
    · exact absurd hf (by omega)
    · simp only [minimaxPlainGen]
      rw [if_pos hwc, hcast]
  refine le_antisymm ?_ ?_
  · refine plainMaxFold_le_of _ _ _ _ ?_ (XInt.negInf_le _)
    intro mv2 hm2
    refine le_trans
      ((plainFast_bounds ai opp fuel (b.placeMark mv2 ai) (depth + 1) false
        (by omega)).2) ?_
    exact XInt.fin_le_fin (by push_cast; omega)
  · rw [← hchild]
    exact le_plainMaxFold_of_mem
      (fun mv2 => minimaxPlainGen fastEmpties ai opp fuel
        (b.placeMark mv2 ai) (depth + 1) false)
      (fastEmpties b) XInt.negInf mv hmem

theorem plainFold_shortcut_min (ai opp : Mark) (hne : ai ≠ opp) (fuel : Nat)
    (b : Board) (depth : Nat) (hf : 1 ≤ fuel) (h10 : depth + (fuel + 1) ≤ 10)
    (h1 : b.check_win ai = false) (hwin : hasWinB b opp = true) :
    plainMinFold
      (fun mv => minimaxPlainGen fastEmpties ai opp fuel (b.placeMark mv opp)
        (depth + 1) true)
      (fastEmpties b) .posInf = .fin (((depth : Int) + 1) - 10) := by
  unfold hasWinB at hwin
  obtain ⟨mv, hmem, hw⟩ := List.any_eq_true.mp hwin
  rw [emptiesB_eq] at hmem
  have hwc : (b.placeMark mv opp).check_win opp = true := by
    rw [← winB_eq]
    exact hw
  have hnai : (b.placeMark mv opp).check_win ai = false := by
    cases hc : (b.placeMark mv opp).check_win ai
    · rfl
    · exact absurd (place_no_new_win hne hc) (by simp [h1])
  have hcast : ((depth + 1 : Nat) : Int) = (depth : Int) + 1 := by omega
  have hchild : minimaxPlainGen fastEmpties ai opp fuel (b.placeMark mv opp)
      (depth + 1) true = .fin (((depth : Int) + 1) - 10) := by
    rcases fuel with _ | f2
    · exact absurd hf (by omega)
    · simp only [minimaxPlainGen]
      rw [if_neg (show ¬((b.placeMark mv opp).check_win ai = true) by
          simp [hnai]),
        if_pos hwc, hcast]
  refine le_antisymm ?_ ?_
  · rw [← hchild]
    exact plainMinFold_le_of_mem
      (fun mv2 => minimaxPlainGen fastEmpties ai opp fuel
        (b.placeMark mv2 opp) (depth + 1) true)
      (fastEmpties b) XInt.posInf mv hmem
  · refine le_plainMinFold_of _ _ _ _ ?_ (XInt.le_posInf _)
    intro mv2 hm2
    refine le_trans (XInt.fin_le_fin (by push_cast; omega))
      ((plainFast_bounds ai opp fuel (b.placeMark mv2 opp) (depth + 1) true
        (by omega)).1)

theorem minimaxFast_km (ai opp : Mark) (hne : ai ≠ opp) :
    ∀ (fuel : Nat) (b : Board) (depth : Nat) (im : Bool) (alpha beta : XInt),
      depth + fuel ≤ 10 → alpha < beta →
      KMrel (minimaxFast ai opp fuel b depth im alpha beta)
        (minimaxPlainGen fastEmpties ai opp fuel b depth im) alpha beta := by
  intro fuel
  induction fuel with
  | zero =>
    intro b depth im alpha beta h10 hab
    exact KMrel_refl _ _ _
  | succ fuel ih =>
    intro b depth im alpha beta h10 hab
    simp only [minimaxFast, minimaxPlainGen]
    rw [winB_eq b ai, winB_eq b opp, drawB_eq b]
    simp only [emptiesB_eq]
    split_ifs with h1 h2 h3 h4 h5 h6
    · exact KMrel_refl _ _ _
    · exact KMrel_refl _ _ _
    · exact KMrel_refl _ _ _
    · obtain ⟨hfd, hwin⟩ := Bool.and_eq_true_iff.mp h5
      have hf1 : 1 ≤ fuel := of_decide_eq_true hfd
      rw [plainFold_shortcut_max ai opp fuel b depth hf1 h10 hwin]
      exact KMrel_refl _ _ _
    · exact abMaxFold_km _ _ beta alpha (fastEmpties b) .negInf alpha
        (fun mv _ a ha =>
          ih (b.placeMark mv ai) (depth + 1) false a beta (by omega) ha)
        (max_eq_left (XInt.negInf_le alpha)).symm hab
    · obtain ⟨hfd, hwin⟩ := Bool.and_eq_true_iff.mp h6
      have hf1 : 1 ≤ fuel := of_decide_eq_true hfd
      have h1f : b.check_win ai = false := by
        cases hc : b.check_win ai
        · rfl
        · exact absurd hc h1
      rw [plainFold_shortcut_min ai opp hne fuel b depth hf1 h10 h1f hwin]
      exact KMrel_refl _ _ _
    · exact abMinFold_km _ _ alpha beta (fastEmpties b) .posInf beta
        (fun mv _ bt hbt =>
          ih (b.placeMark mv opp) (depth + 1) true alpha bt (by omega) hbt)
        (min_eq_left (XInt.le_posInf beta)).symm hab

theorem fastScore_eq (b : Board) (m : Mark) (mv : Move) (bs : XInt)
    (hbs : bs < XInt.posInf)
    (hlt : bs <
      minimaxFast m m.opp 9 (b.placeMark mv m) 0 false bs .posInf) :
    minimaxFast m m.opp 9 (b.placeMark mv m) 0 false bs .posInf =
      minimaxPlainGen fastEmpties m m.opp 9 (b.placeMark mv m) 0 false := by
  obtain ⟨_, hkb, hkc⟩ :=
    minimaxFast_km m m.opp (mark_opp_ne m).symm 9 (b.placeMark mv m) 0 false
      bs .posInf (by omega) hbs
  by_cases hsc :
      minimaxFast m m.opp 9 (b.placeMark mv m) 0 false bs .posInf
        < XInt.posInf
  · exact hkc hlt hsc
  · exfalso
    have hscp := not_lt.mp hsc
    have hvp : XInt.posInf ≤
        minimaxPlainGen fastEmpties m m.opp 9 (b.placeMark mv m) 0 false :=
      le_trans hscp (hkb hscp)
    obtain ⟨n, hn⟩ := minimaxPlainGen_fast_fin m m.opp 9 (b.placeMark mv m) 0 false
    rw [hn] at hvp
    exact absurd hvp (not_le.mpr (XInt.fin_lt_posInf n))

theorem fastScore_le (b : Board) (m : Mark) (mv : Move) (bs : XInt)
    (hbs : bs < XInt.posInf)
    (hle :
      minimaxFast m m.opp 9 (b.placeMark mv m) 0 false bs .posInf
        ≤ bs) :
    minimaxPlainGen fastEmpties m m.opp 9 (b.placeMark mv m) 0 false ≤ bs := by
  obtain ⟨hka, _, _⟩ :=
    minimaxFast_km m m.opp (mark_opp_ne m).symm 9 (b.placeMark mv m) 0 false
      bs .posInf (by omega) hbs
  exact le_trans (hka hle) hle

theorem fastRootGo_eq (b : Board) (m : Mark) :
    ∀ (l : List Move) (bs : XInt) (bm : Option Move),
      bs < XInt.posInf →
      fastRootGo b m l bs bm =
        rootLoop
          (fun mv =>
            minimaxPlainGen fastEmpties m m.opp 9 (b.placeMark mv m) 0 false)
          l bs bm
  | [], _, _, _ => rfl
  | mv :: rest, bs, bm, hbs => by
    simp only [fastRootGo, rootLoop]
    by_cases hlt : bs <
        minimaxFast m m.opp 9 (b.placeMark mv m) 0 false bs .posInf
    · have hscv := fastScore_eq b m mv bs hbs hlt
      have hlt2 : bs <
          minimaxPlainGen fastEmpties m m.opp 9 (b.placeMark mv m) 0 false := by
        rw [← hscv]
        exact hlt
      rw [if_pos hlt, if_pos hlt2, hscv]
      obtain ⟨n, hn⟩ :=
        minimaxPlainGen_fast_fin m m.opp 9 (b.placeMark mv m) 0 false
      exact fastRootGo_eq b m rest _ (some mv)
        (by rw [hn]; exact XInt.fin_lt_posInf n)
    · have hsb := not_lt.mp hlt
      have hvb := fastScore_le b m mv bs hbs hsb
      rw [if_neg hlt, if_neg (not_lt.mpr hvb)]
      exact fastRootGo_eq b m rest bs bm hbs

theorem hardRoot_eq_plainRoot (b : Board) (m : Mark) :
    hardRoot b m = plainRoot b m := by
  unfold hardRoot plainRoot
  exact rootLoop_congr _ _ b.get_empty_cells .negInf none
    (fun mv _ => minimax_full_window Board.get_empty_cells m m.opp 9
      (b.placeMark mv m) 0 false)

theorem hardRoot_eq_fastRoot (b : Board) (m : Mark) :
    hardRoot b m = fastRoot b m := by
  rw [hardRoot_eq_plainRoot]
  unfold plainRoot fastRoot
  rw [rootLoop_congr
    (fun mv => minimaxPlain m m.opp 9 (b.placeMark mv m) 0 false)
    (fun mv => minimaxPlainGen fastEmpties m m.opp 9 (b.placeMark mv m) 0 false)
    b.get_empty_cells .negInf none
    (fun mv _ => minimaxPlainGen_perm Board.get_empty_cells fastEmpties
      (fun b2 => (fastEmpties_perm b2).symm) m m.opp 9 (b.placeMark mv m) 0 false)]
  exact (fastRootGo_eq b m b.get_empty_cells .negInf none
    XInt.negInf_lt_posInf).symm

theorem hardStep_eq (b : Board) (m : Mark) (mv : Move) (sc : XInt)
    (hover : b.is_game_over = false)
    (hroot : fastRoot b m = (sc, some mv)) :
    hardSelfPlayStep (b, m) = (b.placeMark mv m, m.opp) := by
  simp only [hardSelfPlayStep]
  rw [if_neg (by simp [hover])]
  have hbm : HardAIStrategy.find_best_move b m = some mv := by
    unfold HardAIStrategy.find_best_move
    rw [hardRoot_eq_fastRoot, hroot]
  rw [hbm]

theorem hardStep_fix (b : Board) (m : Mark) (hover : b.is_game_over = true) :
    hardSelfPlayStep (b, m) = (b, m) := by
  simp only [hardSelfPlayStep]
  rw [if_pos hover]

theorem fastRoot_step0 : fastRoot emptyBoard .X = (.fin 0, some ⟨0, 0⟩) := by
  decide!

theorem fastRoot_step1 : fastRoot tb1 .O = (.fin 0, some ⟨1, 1⟩) := by decide!

theorem fastRoot_step2 : fastRoot tb2 .X = (.fin 0, some ⟨0, 1⟩) := by decide!

theorem fastRoot_step3 : fastRoot tb3 .O = (.fin 0, some ⟨0, 2⟩) := by decide!

theorem fastRoot_step4 : fastRoot tb4 .X = (.fin 0, some ⟨2, 0⟩) := by decide!

theorem fastRoot_step5 : fastRoot tb5 .O = (.fin 0, some ⟨1, 0⟩) := by decide!

theorem fastRoot_step6 : fastRoot tb6 .X = (.fin 0, some ⟨1, 2⟩) := by decide!

theorem fastRoot_step7 : fastRoot tb7 .O = (.fin 0, some ⟨2, 1⟩) := by decide!

theorem fastRoot_step8 : fastRoot tb8 .X = (.fin 0, some ⟨2, 2⟩) := by decide!

theorem hardTrace_one : hardTrace 1 = (tb1, .O) := by
  show hardSelfPlayStep (emptyBoard, .X) = _
  rw [hardStep_eq emptyBoard .X ⟨0, 0⟩ (.fin 0) (by decide) fastRoot_step0]
  exact rfl

theorem hardTrace_two : hardTrace 2 = (tb2, .X) := by
  show hardSelfPlayStep (hardTrace 1) = _
  rw [hardTrace_one, hardStep_eq tb1 .O ⟨1, 1⟩ (.fin 0) (by decide) fastRoot_step1]
  exact rfl

theorem hardTrace_three : hardTrace 3 = (tb3, .O) := by
  show hardSelfPlayStep (hardTrace 2) = _
  rw [hardTrace_two, hardStep_eq tb2 .X ⟨0, 1⟩ (.fin 0) (by decide) fastRoot_step2]
  exact rfl

theorem hardTrace_four : hardTrace 4 = (tb4, .X) := by
  show hardSelfPlayStep (hardTrace 3) = _
  rw [hardTrace_three, hardStep_eq tb3 .O ⟨0, 2⟩ (.fin 0) (by decide) fastRoot_step3]
  exact rfl

theorem hardTrace_five : hardTrace 5 = (tb5, .O) := by
  show hardSelfPlayStep (hardTrace 4) = _
  rw [hardTrace_four, hardStep_eq tb4 .X ⟨2, 0⟩ (.fin 0) (by decide) fastRoot_step4]
  exact rfl

theorem hardTrace_six : hardTrace 6 = (tb6, .X) := by
  show hardSelfPlayStep (hardTrace 5) = _
  rw [hardTrace_five, hardStep_eq tb5 .O ⟨1, 0⟩ (.fin 0) (by decide) fastRoot_step5]
  exact rfl

theorem hardTrace_seven : hardTrace 7 = (tb7, .O) := by
  show hardSelfPlayStep (hardTrace 6) = _
  rw [hardTrace_six, hardStep_eq tb6 .X ⟨1, 2⟩ (.fin 0) (by decide) fastRoot_step6]
  exact rfl

theorem hardTrace_eight : hardTrace 8 = (tb8, .X) := by
  show hardSelfPlayStep (hardTrace 7) = _
  rw [hardTrace_seven, hardStep_eq tb7 .O ⟨2, 1⟩ (.fin 0) (by decide) fastRoot_step7]
  exact rfl

theorem hardTrace_nine : hardTrace 9 = (tb9, .O) := by
  show hardSelfPlayStep (hardTrace 8) = _
  rw [hardTrace_eight, hardStep_eq tb8 .X ⟨2, 2⟩ (.fin 0) (by decide) fastRoot_step8]
  exact rfl

theorem hardSelfPlay_trace : ∀ (n k : Nat),
    hardSelfPlay n (hardTrace k) = hardTrace (k + n)
  | 0, k => rfl
  | n + 1, k => by
    show hardSelfPlay n (hardSelfPlayStep (hardTrace k)) = _
    have h1 : hardSelfPlayStep (hardTrace k) = hardTrace (k + 1) := rfl
    rw [h1, hardSelfPlay_trace n (k + 1)]
    congr 1
    omega

theorem hardTrace_ge_nine : ∀ k : Nat, hardTrace (9 + k) = hardTrace 9
  | 0 => rfl
  | k + 1 => by
    show hardSelfPlayStep (hardTrace (9 + k)) = _
    rw [hardTrace_ge_nine k, hardTrace_nine, hardStep_fix tb9 .O (by decide),
      ← hardTrace_nine]

/-- C3: Hard-vs-Hard self-play from the empty board is deterministic
and ends after nine plies in a completed game that is a draw — neither
mark wins — and from every position arising in that game (every
reachable position of Hard-vs-Hard play), continuing Hard-vs-Hard play
reaches that same drawn final position: Hard play is never worse than a
draw. -/
theorem C3_hard_vs_hard_draw :
    ((hardTrace 9).1.check_draw = true ∧
      (hardTrace 9).1.check_win .X = false ∧
      (hardTrace 9).1.check_win .O = false) ∧
    ∀ k : Nat, hardSelfPlay 9 (hardTrace k) = hardTrace 9 := by
  constructor
  · rw [hardTrace_nine]
    exact ⟨by decide, by decide, by decide⟩
  · intro k
    rw [hardSelfPlay_trace 9 k, Nat.add_comm]
    exact hardTrace_ge_nine k
